import Mathlib

/-!
# A verification model of the distsync repository

Shallow embedding of the distsync distributed file storage service:
the consistent hash ring (`master/hash_ring.py`), the coordinator
(`master/master_server.py`), the storage node (`node/node_server.py`) and
the client chunking/reassembly logic (`client/client.py`).

Byte strings are modelled as `List Nat` (each element a byte value),
Python `int` as `Nat`/`Int`, and Python dicts as insertion-ordered
association lists.  Loops are modelled by structural recursion on an
explicit fuel where Python uses an unbounded `while`; an `Option` result
records whether the fuel sufficed (`none` = the Python loop would still
be running after that many iterations).
-/

namespace DistSync

/-! ## SHA-256 over `Nat`

A faithful functional model of `hashlib.sha256(...).hexdigest()` read as a
big unsigned integer, as used by `ConsistentHashRing._hash_key`.
32-bit words are naturals below 2^32. -/

/-- Truncate to a 32-bit word. -/
def w32 (x : Nat) : Nat := x % 4294967296

/-- Right rotation of a 32-bit word. -/
def rotr (n x : Nat) : Nat := w32 ((x >>> n) ||| (x <<< (32 - n)))

def bsig0 (x : Nat) : Nat := (rotr 2 x) ^^^ (rotr 13 x) ^^^ (rotr 22 x)
def bsig1 (x : Nat) : Nat := (rotr 6 x) ^^^ (rotr 11 x) ^^^ (rotr 25 x)
def ssig0 (x : Nat) : Nat := (rotr 7 x) ^^^ (rotr 18 x) ^^^ (x >>> 3)
def ssig1 (x : Nat) : Nat := (rotr 17 x) ^^^ (rotr 19 x) ^^^ (x >>> 10)

/-- Bitwise complement within 32 bits, via xor with all ones. -/
def wnot (x : Nat) : Nat := x ^^^ 4294967295

def ch (x y z : Nat) : Nat := (x &&& y) ^^^ ((wnot x) &&& z)
def maj (x y z : Nat) : Nat := (x &&& y) ^^^ (x &&& z) ^^^ (y &&& z)

/-- The 64 SHA-256 round constants (decimal values of the standard
`428a2f98, 71374491, ...` hex table). -/
def sha256K : List Nat :=
  [1116352408, 1899447441, 3049323471, 3921009573, 961987163,
   1508970993, 2453635748, 2870763221, 3624381080, 310598401,
   607225278, 1426881987, 1925078388, 2162078206, 2614888103,
   3248222580, 3835390401, 4022224774, 264347078, 604807628,
   770255983, 1249150122, 1555081692, 1996064986, 2554220882,
   2821834349, 2952996808, 3210313671, 3336571891, 3584528711,
   113926993, 338241895, 666307205, 773529912, 1294757372,
   1396182291, 1695183700, 1986661051, 2177026350, 2456956037,
   2730485921, 2820302411, 3259730800, 3345764771, 3516065817,
   3600352804, 4094571909, 275423344, 430227734, 506948616,
   659060556, 883997877, 958139571, 1322822218, 1537002063,
   1747873779, 1955562222, 2024104815, 2227730452, 2361852424,
   2428436474, 2756734187, 3204031479, 3329325298]

/-- Big-endian 8-byte encoding of a (64-bit) natural. -/
def be64 (n : Nat) : List Nat :=
  [(n >>> 56) % 256, (n >>> 48) % 256, (n >>> 40) % 256, (n >>> 32) % 256,
   (n >>> 24) % 256, (n >>> 16) % 256, (n >>> 8) % 256, n % 256]

/-- SHA-256 message padding: append byte 0x80, zero bytes until the length is
56 mod 64, then the 8-byte big-endian bit length. -/
def padMessage (msg : List Nat) : List Nat :=
  let len := msg.length
  let zeros := (55 + 64 - len % 64) % 64
  msg ++ [128] ++ List.replicate zeros 0 ++ be64 (len * 8)

/-- Split a byte list into blocks of 64 bytes.  The fuel (instantiated at the
list length, which dominates the number of blocks) keeps the recursion
structural. -/
def toBlocksF : Nat → List Nat → List (List Nat)
  | 0, _ => []
  | fuel + 1, l => if l = [] then [] else l.take 64 :: toBlocksF fuel (l.drop 64)

def toBlocks (l : List Nat) : List (List Nat) := toBlocksF l.length l

/-- Combine bytes into big-endian 32-bit words. -/
def beWords : List Nat → List Nat
  | b0 :: b1 :: b2 :: b3 :: rest =>
      (b0 * 16777216 + b1 * 65536 + b2 * 256 + b3) :: beWords rest
  | _ => []

/-- Pack a word list into one natural, first word at the high end. -/
def packWords (l : List Nat) : Nat := l.foldl (fun acc w => acc * 4294967296 + w) 0

/-- Extend the message schedule: `win` packs the previous 16 words
(`w[t-16]` highest, `w[t-1]` lowest); emits the next `n` words. -/
def extWords : Nat → Nat → List Nat
  | 0, _ => []
  | n + 1, win =>
      let wm2 := (win >>> 32) &&& 4294967295
      let wm7 := (win >>> 192) &&& 4294967295
      let wm15 := (win >>> 448) &&& 4294967295
      let wm16 := (win >>> 480) &&& 4294967295
      let nw := w32 (ssig1 wm2 + wm7 + ssig0 wm15 + wm16)
      nw :: extWords n ((win * 4294967296 + nw) %
        13407807929942597099574024998205846127479365820592393377723561443721764030073546976801874298166903427690031858186486050853753882811946569946433649006084096)

/-- The eight working variables of the compression function. -/
structure Hash8 where
  a : Nat
  b : Nat
  c : Nat
  d : Nat
  e : Nat
  f : Nat
  g : Nat
  h : Nat

/-- Initial SHA-256 hash value. -/
def sha256H0 : Hash8 :=
  ⟨1779033703, 3144134277, 1013904242, 2773480762, 1359893119, 2600822924, 528734635, 1541459225⟩

/-- One round of the SHA-256 compression function; `wk` is `(W[t], K[t])`. -/
def sha256Round (st : Hash8) (wk : Nat × Nat) : Hash8 :=
  let t1 := st.h + bsig1 st.e + ch st.e st.f st.g + wk.2 + wk.1
  let t2 := bsig0 st.a + maj st.a st.b st.c
  ⟨w32 (t1 + t2), st.a, st.b, st.c, w32 (st.d + t1), st.e, st.f, st.g⟩

/-- Run the rounds over the (schedule, constant) pairs. -/
def sha256Rounds : Hash8 → List (Nat × Nat) → Hash8
  | st, [] => st
  | st, wk :: rest => sha256Rounds (sha256Round st wk) rest

/-- Process one 64-byte block. -/
def sha256Block (H : Hash8) (block : List Nat) : Hash8 :=
  let w16 := beWords block
  let W := w16 ++ extWords 48 (packWords w16)
  let s := sha256Rounds H (W.zip sha256K)
  ⟨w32 (H.a + s.a), w32 (H.b + s.b), w32 (H.c + s.c), w32 (H.d + s.d),
   w32 (H.e + s.e), w32 (H.f + s.f), w32 (H.g + s.g), w32 (H.h + s.h)⟩

def sha256Blocks : Hash8 → List (List Nat) → Hash8
  | H, [] => H
  | H, b :: rest => sha256Blocks (sha256Block H b) rest

/-- SHA-256 digest of a byte list, as the 256-bit big-endian integer
(the value of Python's `int(hexdigest, 16)`). -/
def sha256Int (msg : List Nat) : Nat :=
  let s := sha256Blocks sha256H0 (toBlocks (padMessage msg))
  ((((((s.a * 4294967296 + s.b) * 4294967296 + s.c) * 4294967296 + s.d) * 4294967296 + s.e) *
      4294967296 + s.f) * 4294967296 + s.g) * 4294967296 + s.h

/-- UTF-8 encoding of a single character (as Python `str.encode("utf-8")`
produces per character). -/
def charUtf8 (c : Char) : List Nat :=
  let n := c.toNat
  if n < 128 then [n]
  else if n < 2048 then [192 + n / 64, 128 + n % 64]
  else if n < 65536 then [224 + n / 4096, 128 + (n / 64) % 64, 128 + n % 64]
  else [240 + n / 262144, 128 + (n / 4096) % 64, 128 + (n / 64) % 64, 128 + n % 64]

/-- UTF-8 encoding of a string as a list of bytes. -/
def utf8Bytes (s : String) : List Nat := s.data.flatMap charUtf8

/-- `ConsistentHashRing._hash_key`: the SHA-256 digest of the UTF-8 encoding
of `key`, read as a big unsigned integer. -/
def hash_key (key : String) : Nat := sha256Int (utf8Bytes key)

/-! ## The consistent hash ring (`master/hash_ring.py`) -/

/-- Python tuple comparison `(h1, n1) < (h2, n2)` on `(int, str)` pairs:
lexicographic, with strings compared by code points (which is exactly the
order of the underlying character lists). -/
def pairLt (x y : Nat × String) : Prop :=
  x.1 < y.1 ∨ (x.1 = y.1 ∧ x.2.data < y.2.data)

instance (x y : Nat × String) : Decidable (pairLt x y) := by
  unfold pairLt; exact inferInstance

/-- The loop of Python's `bisect.bisect_right` (pure binary search on
`[lo, hi)`); the fuel dominates the iteration count, which is at most
`hi - lo` since the interval shrinks strictly every iteration. -/
def bisectAux (a : List (Nat × String)) (x : Nat × String) : Nat → Nat → Nat → Nat
  | 0, lo, _ => lo
  | fuel + 1, lo, hi =>
    if lo < hi then
      let mid := (lo + hi) / 2
      if pairLt x (a.getD mid (0, "")) then bisectAux a x fuel lo mid
      else bisectAux a x fuel (mid + 1) hi
    else lo

/-- `bisect.bisect_right(a, x)` over the whole list. -/
def bisectRight (a : List (Nat × String)) (x : Nat × String) : Nat :=
  bisectAux a x (a.length + 1) 0 a.length

/-- State of `ConsistentHashRing`: the replication factor, the
`(hash, node_id)` point list ("the ring"), and the node registry
`node_id -> virtual point hashes` (a Python dict, modelled as an
insertion-ordered association list). -/
structure RingState where
  replicationFactor : Nat
  ring : List (Nat × String)
  nodes : List (String × List Nat)
deriving DecidableEq

/-- `ConsistentHashRing.__init__`. -/
def mkRing (replicationFactor : Nat) : RingState := ⟨replicationFactor, [], []⟩

/-- Stable insertion of a point into a list sorted by hash: the new point goes
after all points of hash less than or equal to its own (so insertion in
original order is a stable sort by hash, matching Python's
`list.sort(key=lambda x: x[0])`). -/
def insertPoint (p : Nat × String) : List (Nat × String) → List (Nat × String)
  | [] => [p]
  | q :: rest => if q.1 ≤ p.1 then q :: insertPoint p rest else p :: q :: rest

/-- `self._ring.sort(key=lambda x: x[0])`: a stable sort by hash value. -/
def sortByHash (l : List (Nat × String)) : List (Nat × String) :=
  l.foldl (fun acc p => insertPoint p acc) []

/-- `ConsistentHashRing.add_node`. -/
def add_node (st : RingState) (nodeId : String) : RingState :=
  if (st.nodes.lookup nodeId).isSome then st
  else
    let points := (List.range st.replicationFactor).map
      (fun i => hash_key (nodeId ++ ":" ++ toString i))
    { st with
      ring := sortByHash (st.ring ++ points.map (fun h => (h, nodeId)))
      nodes := st.nodes ++ [(nodeId, points)] }

/-- `ConsistentHashRing.remove_node`. -/
def remove_node (st : RingState) (nodeId : String) : RingState :=
  match st.nodes.lookup nodeId with
  | none => st
  | some points =>
    { st with
      nodes := st.nodes.eraseP (fun e => e.1 == nodeId)
      ring := st.ring.filter (fun e => ¬(e.2 = nodeId ∧ e.1 ∈ points)) }

/-- One iteration's effect on `selected`: append the node identifier unless
it was seen before (the Python code's `seen` set always holds exactly the
elements of `selected`). -/
def selAdd (sel : List String) (n : String) : List String :=
  if n ∈ sel then sel else sel ++ [n]

/-- The body of `get_nodes_for_key`'s `while` loop: walk the ring from
position `i`, collecting node identifiers not seen before, until `target`
distinct ones are selected.  `none` means the fuel ran out with the loop
condition still true (the Python loop would keep running). -/
def walkAux (ring : List (Nat × String)) (target : Nat) :
    Nat → Nat → List String → Option (List String)
  | 0, _, sel => if sel.length < target then none else some sel
  | fuel + 1, i, sel =>
    if sel.length < target then
      walkAux ring target fuel (i + 1) (selAdd sel (ring.getD (i % ring.length) (0, "")).2)
    else some sel

/-- `ConsistentHashRing.get_nodes_for_key`.  Fuel `ring.length` suffices
whenever the Python loop terminates, because after `ring.length` steps the
walk has visited every ring position. -/
def get_nodes_for_key (st : RingState) (key : String) (count : Nat) :
    Option (List String) :=
  if st.ring = [] then some []
  else
    let keyHash := hash_key key
    let idx := bisectRight st.ring (keyHash, "")
    walkAux st.ring (min count st.nodes.length) st.ring.length idx []

/-- `ConsistentHashRing.nodes`. -/
def nodesList (st : RingState) : List String := st.nodes.map Prod.fst

/-- One mutation of the ring. -/
inductive RingOp
  | add (nodeId : String)
  | remove (nodeId : String)

def RingOp.nodeId : RingOp → String
  | .add n => n
  | .remove n => n

def applyOp (st : RingState) : RingOp → RingState
  | .add n => add_node st n
  | .remove n => remove_node st n

/-- A ring built from a fresh ring by a sequence of add/remove operations. -/
def applyOps (rf : Nat) (ops : List RingOp) : RingState :=
  ops.foldl applyOp (mkRing rf)

/-! ## The storage node (`node/node_server.py`)

A node's on-disk chunk files are modelled as an association list from the
chunk's relative path inside the node's storage directory to its byte
content. -/

/-- A message `Chunk` (`FileChunk` in the schema). -/
structure FileChunk where
  filename : String
  data : List Nat
  chunk_id : Nat
  total_chunks : Nat
deriving DecidableEq

/-- An RPC acknowledgement. -/
structure Ack where
  success : Bool
  message : String
deriving DecidableEq

/-- `filename.replace("/", "_")`.  Pattern and replacement are single
characters, so Python's `str.replace` is exactly a character map. -/
def safe_name (filename : String) : String :=
  ⟨filename.data.map (fun c => if c = '/' then '_' else c)⟩

/-- `NodeServicer._chunk_path` (relative to the storage directory):
`f"{safe_name}.{chunk_id}.chunk"`. -/
def chunk_path (filename : String) (chunk_id : Nat) : String :=
  safe_name filename ++ "." ++ toString chunk_id ++ ".chunk"

/-- A node's local chunk storage: path -> byte content. -/
def NodeStore := List (String × List Nat)
deriving instance DecidableEq for NodeStore

/-- Update-or-append for an association list (Python `dict` assignment /
overwriting a file at a path). -/
def upsert {α : Type} : List (String × α) → String → α → List (String × α)
  | [], k, v => [(k, v)]
  | (k', v') :: rest, k, v =>
    if k' = k then (k', v) :: rest else (k', v') :: upsert rest k v

/-- `NodeServicer.StoreChunk`: write (creating or overwriting) the payload at
the computed path; always acknowledge with "stored". -/
def StoreChunk (store : NodeStore) (c : FileChunk) : NodeStore × Ack :=
  (upsert store (chunk_path c.filename c.chunk_id) c.data, ⟨true, "stored"⟩)

/-- `NodeServicer.GetChunk`: read the computed path; `none` models the
NOT_FOUND abort, otherwise the reply carries the stored payload, the
requested filename and chunk id, and `total_chunks = 0`. -/
def GetChunk (store : NodeStore) (filename : String) (chunk_id : Nat) :
    Option FileChunk :=
  (store.lookup (chunk_path filename chunk_id)).map
    (fun d => ⟨filename, d, chunk_id, 0⟩)

/-! ## The coordinator (`master/master_server.py`)

Wall-clock instants are modelled as integers; every handler takes the
current time `now` explicitly (the value of `time.time()` during the call).
The concurrent `StoreChunk` fan-out is modelled as a sequential fold over
the (node, chunk) placement pairs; it coincides with every interleaving of
the concurrent execution whenever the written locations are distinct or
carry equal data, which is the situation in the claims below. -/

/-- The persisted metadata document (`metadata.json`): the `nodes` and
`files` mappings. -/
structure MetaDoc where
  nodes : List (String × String)
  files : List (String × Nat)
deriving DecidableEq

/-- Coordinator state.  `file_index` maps a filename to the stored
`total_chunks` value (the only key of the per-file dict). -/
structure MasterState where
  replication : Nat
  ring : RingState
  node_address : List (String × String)
  node_last_heartbeat : List (String × Int)
  file_index : List (String × Nat)
  metadata_doc : MetaDoc
deriving DecidableEq

/-- `Coordinator._save_metadata`: rewrite the whole document. -/
def save_metadata (m : MasterState) : MasterState :=
  { m with metadata_doc := ⟨m.node_address, m.file_index⟩ }

/-- `Coordinator._live_nodes`: nodes whose last heartbeat is within the fixed
10-second window (`now - ts <= 10.0`). -/
def live_nodes (m : MasterState) (now : Int) : List String :=
  (m.node_last_heartbeat.filter (fun e => now - e.2 ≤ 10)).map Prod.fst

/-- `Coordinator.Heartbeat`. -/
def Heartbeat (m : MasterState) (node_id : String) (now : Int) :
    Ack × MasterState :=
  if (m.node_address.lookup node_id).isSome then
    (⟨true, "ok"⟩, { m with node_last_heartbeat := upsert m.node_last_heartbeat node_id now })
  else (⟨false, "unknown node"⟩, m)

/-- `Coordinator.RegisterNode`. -/
def RegisterNode (m : MasterState) (node_id address : String) (now : Int) :
    Ack × MasterState :=
  let m1 := { m with
    node_address := upsert m.node_address node_id address
    node_last_heartbeat := upsert m.node_last_heartbeat node_id now }
  let m2 :=
    if node_id ∈ nodesList m1.ring then m1
    else { m1 with ring := add_node m1.ring node_id }
  (⟨true, "registered"⟩, save_metadata m2)

/-- The whole system: the coordinator plus the running storage nodes'
stores, keyed by node id (a node reachable over the network is a key of
`stores`). -/
structure SystemState where
  master : MasterState
  stores : List (String × NodeStore)
deriving DecidableEq

/-- One `StoreChunk` RPC issued by the upload fan-out.  A missing address or
an unreachable node makes the call raise; `UploadFile` catches and logs the
error and continues, so the write is simply dropped. -/
def store_to_node (sys : SystemState) (nid : String) (c : FileChunk) : SystemState :=
  match sys.master.node_address.lookup nid with
  | none => sys
  | some _ =>
    match sys.stores.lookup nid with
    | none => sys
    | some st => { sys with stores := upsert sys.stores nid (StoreChunk st c).1 }

/-- The placement loop of `UploadFile`: for every buffered chunk, compute
the ring candidates for `"<filename>:<chunk_id>"` and filter them to live
nodes.  Outer `none` = a ring walk ran out of fuel; `some none` = some
chunk's filtered candidate list was empty (the "no live nodes for chunk"
abort); `some (some ps)` = every chunk got its live candidate list. -/
def compute_placements (ring : RingState) (repl : Nat) (live : List String)
    (filename : String) : List FileChunk → Option (Option (List (FileChunk × List String)))
  | [] => some (some [])
  | c :: rest =>
    match get_nodes_for_key ring (filename ++ ":" ++ toString c.chunk_id) repl with
    | none => none
    | some nids =>
      let nids := nids.filter (fun n => n ∈ live)
      if nids = [] then some none
      else
        match compute_placements ring repl live filename rest with
        | none => none
        | some none => some none
        | some (some ps) => some (some ((c, nids) :: ps))

/-- The fan-out's (node, chunk) write sequence, in submission order. -/
def fanout_writes (ps : List (FileChunk × List String)) : List (String × FileChunk) :=
  ps.flatMap (fun p => p.2.map (fun nid => (nid, p.1)))

def do_fanout (sys : SystemState) (ws : List (String × FileChunk)) : SystemState :=
  ws.foldl (fun s w => store_to_node s w.1 w.2) sys

/-- `Coordinator.UploadFile` on the buffered chunk list.  Returns the
`UploadStatus` message and the new system state; `none` means a ring walk
ran out of fuel (never the case for well-formed rings). -/
def UploadFile (sys : SystemState) (now : Int) (chunks : List FileChunk) :
    Option (String × SystemState) :=
  match chunks with
  | [] => some ("no data", sys)
  | first :: _ =>
    let filename := first.filename
    let total := if first.total_chunks = 0 then chunks.length else first.total_chunks
    let live := live_nodes sys.master now
    if live = [] then some ("no live nodes", sys)
    else
      match compute_placements sys.master.ring sys.master.replication live filename chunks with
      | none => none
      | some none => some ("no live nodes for chunk", sys)
      | some (some ps) =>
        let sys1 := do_fanout sys (fanout_writes ps)
        let m1 := { sys1.master with
          file_index := upsert sys1.master.file_index filename total }
        some ("ok", { sys1 with master := save_metadata m1 })

/-- Result of a `DownloadFile` call, as observed by the client. -/
inductive DownloadResult
  | notFound
  | noLiveNodes
  | chunkUnavailable (chunk_id : Nat)
  | ok (chunks : List FileChunk)
deriving DecidableEq

/-- The per-chunk candidate loop of `DownloadFile`: try each ring candidate
in order, skipping non-live ones; an unreachable node or a NOT_FOUND reply
is logged and the next candidate is tried.  `some none` = no live candidate
served the chunk; outer `none` = a missing node address (the `KeyError`
would escape the handler; unreachable under the coordinator invariants). -/
def try_fetch (sys : SystemState) (live : List String) (filename : String)
    (cid : Nat) : List String → Option (Option FileChunk)
  | [] => some none
  | nid :: rest =>
    if nid ∈ live then
      match sys.master.node_address.lookup nid with
      | none => none
      | some _ =>
        match sys.stores.lookup nid with
        | none => try_fetch sys live filename cid rest
        | some st =>
          match GetChunk st filename cid with
          | none => try_fetch sys live filename cid rest
          | some c => some (some c)
    else try_fetch sys live filename cid rest

/-- The chunk-index loop of `DownloadFile` over the given chunk ids.
`Except.error cid` = the "chunk unavailable" abort at `cid`. -/
def fetch_all (sys : SystemState) (live : List String) (filename : String) :
    List Nat → Option (Except Nat (List FileChunk))
  | [] => some (Except.ok [])
  | cid :: rest =>
    match get_nodes_for_key sys.master.ring (filename ++ ":" ++ toString cid)
        sys.master.replication with
    | none => none
    | some nids =>
      match try_fetch sys live filename cid nids with
      | none => none
      | some none => some (Except.error cid)
      | some (some c) =>
        match fetch_all sys live filename rest with
        | none => none
        | some (Except.error e) => some (Except.error e)
        | some (Except.ok cs) => some (Except.ok (c :: cs))

/-- `Coordinator.DownloadFile`. -/
def DownloadFile (sys : SystemState) (now : Int) (filename : String) :
    Option DownloadResult :=
  match sys.master.file_index.lookup filename with
  | none => some .notFound
  | some total =>
    let live := live_nodes sys.master now
    if live = [] then some .noLiveNodes
    else
      match fetch_all sys live filename (List.range total) with
      | none => none
      | some (Except.error cid) => some (.chunkUnavailable cid)
      | some (Except.ok cs) => some (.ok cs)

/-! ## The client (`client/client.py`) -/

/-- `os.path.basename`: everything after the last `/`. -/
def basename (p : String) : String :=
  ⟨(p.data.reverse.takeWhile (fun c => c ≠ '/')).reverse⟩

/-- `client.stream_file_chunks` on the file's byte content: split into
`chunk_size`-byte chunks (default 1 MiB), tagging each with the file's base
name, its zero-based index and the total chunk count
`ceil(len / chunk_size)`. -/
def stream_file_chunks (filename : String) (data : List Nat)
    (chunk_size : Nat := 1048576) : List FileChunk :=
  let total_chunks := (data.length + chunk_size - 1) / chunk_size
  (List.range total_chunks).map (fun i =>
    ⟨basename filename, (data.drop (i * chunk_size)).take chunk_size, i, total_chunks⟩)

/-- `client.download`: concatenate the data of the streamed chunks. -/
def client_joined_bytes (r : DownloadResult) : Option (List Nat) :=
  match r with
  | .ok cs => some (cs.map (fun c => c.data)).flatten
  | _ => none

end DistSync

namespace DistSync

/-! ## Association-list lemmas -/

theorem lookup_upsert_self {α : Type} (l : List (String × α)) (k : String) (v : α) :
    (upsert l k v).lookup k = some v := by
  induction l with
  | nil => simp [upsert, List.lookup_cons]
  | cons e rest ih =>
    obtain ⟨k', v'⟩ := e
    by_cases h : k' = k
    · subst h
      simp [upsert, List.lookup_cons]
    · have hb : (k == k') = false := beq_eq_false_iff_ne.mpr (fun hh => h hh.symm)
      simp only [upsert, if_neg h, List.lookup_cons, hb]
      exact ih

theorem lookup_upsert_ne {α : Type} (l : List (String × α)) (k k'' : String) (v : α)
    (h : k'' ≠ k) : (upsert l k v).lookup k'' = l.lookup k'' := by
  have hb : (k'' == k) = false := beq_eq_false_iff_ne.mpr h
  induction l with
  | nil => simp [upsert, List.lookup_cons, hb]
  | cons e rest ih =>
    obtain ⟨k', v'⟩ := e
    by_cases hk : k' = k
    · subst hk
      simp [upsert, List.lookup_cons, hb]
    · simp only [upsert, if_neg hk, List.lookup_cons]
      by_cases he : k'' = k'
      · simp [he]
      · have hb2 : (k'' == k') = false := beq_eq_false_iff_ne.mpr he
        simp only [hb2]
        exact ih

theorem lookup_upsert_isSome {α : Type} (l : List (String × α)) (k k'' : String) (v : α)
    (hk : (l.lookup k).isSome) :
    ((upsert l k v).lookup k'').isSome = (l.lookup k'').isSome := by
  by_cases h : k'' = k
  · subst h
    rw [lookup_upsert_self]
    simpa using hk
  · rw [lookup_upsert_ne _ _ _ _ h]

/-! ## C10: chunk path aliasing on a storage node -/

theorem safe_name_slash : safe_name "a/b" = "a_b" := by decide

/-- C10: the storage node's chunk-location function is not injective in the
filename: the distinct filenames "a/b" and "a_b" map, for every chunk id, to
the identical on-disk path, so whichever of the two chunks is stored last
owns the location, and a read of either filename returns the last payload
written. -/
theorem chunk_path_aliasing :
    ("a/b" ≠ "a_b")
    ∧ (∀ cid : Nat, chunk_path "a/b" cid = chunk_path "a_b" cid)
    ∧ (∀ (store : NodeStore) (d1 d2 : List Nat) (cid : Nat),
        GetChunk (StoreChunk (StoreChunk store ⟨"a/b", d1, cid, 0⟩).1 ⟨"a_b", d2, cid, 0⟩).1
            "a/b" cid = some ⟨"a/b", d2, cid, 0⟩
        ∧ GetChunk (StoreChunk (StoreChunk store ⟨"a_b", d2, cid, 0⟩).1 ⟨"a/b", d1, cid, 0⟩).1
            "a_b" cid = some ⟨"a_b", d1, cid, 0⟩) := by
  have hpath : ∀ cid : Nat, chunk_path "a/b" cid = chunk_path "a_b" cid := by
    intro cid
    unfold chunk_path
    rw [safe_name_slash]
    rfl
  refine ⟨by decide, hpath, ?_⟩
  intro store d1 d2 cid
  constructor
  · unfold GetChunk StoreChunk
    rw [hpath, lookup_upsert_self]
    rfl
  · unfold GetChunk StoreChunk
    rw [← hpath, lookup_upsert_self]
    rfl

/-! ## C7: store/get round-trip on a storage node -/

theorem foldl_store_lookup_ne (writes : List FileChunk) (s : NodeStore) (p : String)
    (h : ∀ c' ∈ writes, chunk_path c'.filename c'.chunk_id ≠ p) :
    (writes.foldl (fun s c' => (StoreChunk s c').1) s).lookup p = s.lookup p := by
  induction writes generalizing s with
  | nil => rfl
  | cons c rest ih =>
    simp only [List.foldl_cons]
    rw [ih _ (fun c' hc' => h c' (List.mem_cons_of_mem _ hc'))]
    exact lookup_upsert_ne _ _ _ _ (fun hp => h c (List.mem_cons_self c rest) hp.symm)

/-- C7: after `StoreChunk` of a chunk with filename `f`, chunk id `c` and
payload `d`, with no later store to the same computed location, `GetChunk f c`
returns exactly payload `d`, filename `f`, chunk id `c` and `total_chunks`
zero; and `GetChunk` on a location never written returns the not-found
signal. -/
theorem store_get_roundtrip :
    (∀ (store : NodeStore) (c : FileChunk) (later : List FileChunk),
      (∀ c' ∈ later, chunk_path c'.filename c'.chunk_id ≠ chunk_path c.filename c.chunk_id) →
      GetChunk (later.foldl (fun s c' => (StoreChunk s c').1) (StoreChunk store c).1)
        c.filename c.chunk_id = some ⟨c.filename, c.data, c.chunk_id, 0⟩)
    ∧ (∀ (writes : List FileChunk) (f : String) (cid : Nat),
      (∀ c' ∈ writes, chunk_path c'.filename c'.chunk_id ≠ chunk_path f cid) →
      GetChunk (writes.foldl (fun s c' => (StoreChunk s c').1) ([] : NodeStore)) f cid = none) := by
  constructor
  · intro store c later h
    unfold GetChunk
    rw [foldl_store_lookup_ne later _ _ h]
    unfold StoreChunk
    rw [lookup_upsert_self]
    rfl
  · intro writes f cid h
    unfold GetChunk
    rw [foldl_store_lookup_ne writes _ _ h]
    rfl

theorem store_get_roundtrip_witness :
    ((∀ c' ∈ [FileChunk.mk "f" [3] 1 0],
        chunk_path c'.filename c'.chunk_id ≠ chunk_path "f" 0)
      ∧ GetChunk ([FileChunk.mk "f" [3] 1 0].foldl (fun s c' => (StoreChunk s c').1)
          (StoreChunk [] ⟨"f", [1, 2], 0, 0⟩).1) "f" 0 = some ⟨"f", [1, 2], 0, 0⟩)
    ∧ ((∀ c' ∈ [FileChunk.mk "f" [1] 0 0],
        chunk_path c'.filename c'.chunk_id ≠ chunk_path "g" 5)
      ∧ GetChunk ([FileChunk.mk "f" [1] 0 0].foldl (fun s c' => (StoreChunk s c').1)
          ([] : NodeStore)) "g" 5 = none) :=
  ⟨⟨by decide, store_get_roundtrip.1 [] ⟨"f", [1, 2], 0, 0⟩ _ (by decide)⟩,
   ⟨by decide, store_get_roundtrip.2 [FileChunk.mk "f" [1] 0 0] "g" 5 (by decide)⟩⟩

/-! ## C5 and C6: Heartbeat -/

/-- C5: `Heartbeat(node_id)` returns a success acknowledgement with message
"ok" iff `node_id` is in the node-address map, in which case its
last-heartbeat timestamp is set to now; otherwise it returns a failure
acknowledgement with message "unknown node" and the whole coordinator state
(in particular the membership maps) is unchanged. -/
theorem heartbeat_result (m : MasterState) (node_id : String) (now : Int) :
    ((Heartbeat m node_id now).1 = ⟨true, "ok"⟩ ↔ (m.node_address.lookup node_id).isSome)
    ∧ ((m.node_address.lookup node_id).isSome →
        (Heartbeat m node_id now).2.node_last_heartbeat.lookup node_id = some now)
    ∧ (¬(m.node_address.lookup node_id).isSome →
        (Heartbeat m node_id now).1 = ⟨false, "unknown node"⟩
        ∧ (Heartbeat m node_id now).2 = m) := by
  unfold Heartbeat
  by_cases h : (m.node_address.lookup node_id).isSome
  · rw [if_pos h]
    exact ⟨by simp [h], fun _ => lookup_upsert_self _ _ _, fun hn => absurd h hn⟩
  · rw [if_neg h]
    exact ⟨by simp [h, Ack.mk.injEq], fun hs => absurd hs h, fun _ => ⟨rfl, rfl⟩⟩

def exampleMaster : MasterState :=
  ⟨2, mkRing 1, [("n1", "127.0.0.1:50051")], [("n1", 100)], [], ⟨[("n1", "127.0.0.1:50051")], []⟩⟩

theorem heartbeat_result_witness :
    ((Heartbeat exampleMaster "n1" 105).1 = ⟨true, "ok"⟩
      ↔ (exampleMaster.node_address.lookup "n1").isSome)
    ∧ ((exampleMaster.node_address.lookup "n1").isSome →
        (Heartbeat exampleMaster "n1" 105).2.node_last_heartbeat.lookup "n1" = some 105)
    ∧ (¬(exampleMaster.node_address.lookup "n1").isSome →
        (Heartbeat exampleMaster "n1" 105).1 = ⟨false, "unknown node"⟩
        ∧ (Heartbeat exampleMaster "n1" 105).2 = exampleMaster) :=
  heartbeat_result exampleMaster "n1" 105

/-- C6: a `Heartbeat` call changes at most the named node's last-heartbeat
timestamp: the replication factor, the hash ring, the node-address map, the
file index and the persisted metadata document are unchanged, and every
other node's heartbeat timestamp is unchanged — whether or not the node is
known (in particular no metadata save ever happens). -/
theorem heartbeat_frame (m : MasterState) (node_id : String) (now : Int) :
    (Heartbeat m node_id now).2.replication = m.replication
    ∧ (Heartbeat m node_id now).2.ring = m.ring
    ∧ (Heartbeat m node_id now).2.node_address = m.node_address
    ∧ (Heartbeat m node_id now).2.file_index = m.file_index
    ∧ (Heartbeat m node_id now).2.metadata_doc = m.metadata_doc
    ∧ ∀ other : String, other ≠ node_id →
        (Heartbeat m node_id now).2.node_last_heartbeat.lookup other
          = m.node_last_heartbeat.lookup other := by
  unfold Heartbeat
  by_cases h : (m.node_address.lookup node_id).isSome
  · rw [if_pos h]
    exact ⟨rfl, rfl, rfl, rfl, rfl, fun other ho => lookup_upsert_ne _ _ _ _ ho⟩
  · rw [if_neg h]
    exact ⟨rfl, rfl, rfl, rfl, rfl, fun _ _ => rfl⟩

theorem heartbeat_frame_witness :
    (Heartbeat exampleMaster "n1" 105).2.replication = exampleMaster.replication
    ∧ (Heartbeat exampleMaster "n1" 105).2.ring = exampleMaster.ring
    ∧ (Heartbeat exampleMaster "n1" 105).2.node_address = exampleMaster.node_address
    ∧ (Heartbeat exampleMaster "n1" 105).2.file_index = exampleMaster.file_index
    ∧ (Heartbeat exampleMaster "n1" 105).2.metadata_doc = exampleMaster.metadata_doc
    ∧ ∀ other : String, other ≠ "n1" →
        (Heartbeat exampleMaster "n1" 105).2.node_last_heartbeat.lookup other
          = exampleMaster.node_last_heartbeat.lookup other :=
  heartbeat_frame exampleMaster "n1" 105

end DistSync

namespace DistSync

/-! ## Sorting lemmas for the ring -/

def hashLe (a b : Nat × String) : Prop := a.1 ≤ b.1

theorem insertPoint_perm (p : Nat × String) (l : List (Nat × String)) :
    (insertPoint p l).Perm (p :: l) := by
  induction l with
  | nil => exact List.Perm.refl _
  | cons q rest ih =>
    unfold insertPoint
    by_cases h : q.1 ≤ p.1
    · rw [if_pos h]
      exact (ih.cons q).trans (List.Perm.swap p q rest)
    · rw [if_neg h]

theorem mem_insertPoint {x p : Nat × String} {l : List (Nat × String)} :
    x ∈ insertPoint p l → x = p ∨ x ∈ l := by
  intro hx
  have := (insertPoint_perm p l).mem_iff.mp hx
  simpa using this

theorem insertPoint_sorted (p : Nat × String) (l : List (Nat × String))
    (h : l.Sorted hashLe) : (insertPoint p l).Sorted hashLe := by
  induction l with
  | nil => simp [insertPoint, List.Sorted]
  | cons q rest ih =>
    rw [List.sorted_cons] at h
    unfold insertPoint
    by_cases hq : q.1 ≤ p.1
    · rw [if_pos hq]
      rw [List.sorted_cons]
      refine ⟨?_, ih h.2⟩
      intro x hx
      rcases mem_insertPoint hx with rfl | hx
      · exact hq
      · exact h.1 x hx
    · rw [if_neg hq]
      rw [List.sorted_cons]
      refine ⟨?_, List.sorted_cons.mpr h⟩
      intro x hx
      rcases List.mem_cons.mp hx with rfl | hx
      · exact Nat.le_of_lt (Nat.lt_of_not_le hq)
      · exact Nat.le_trans (Nat.le_of_lt (Nat.lt_of_not_le hq)) (h.1 x hx)

theorem foldl_insertPoint_sorted (l : List (Nat × String)) :
    ∀ acc : List (Nat × String), acc.Sorted hashLe →
      (l.foldl (fun acc p => insertPoint p acc) acc).Sorted hashLe := by
  induction l with
  | nil => intro acc h; exact h
  | cons p rest ih =>
    intro acc h
    exact ih _ (insertPoint_sorted p acc h)

theorem sortByHash_sorted (l : List (Nat × String)) : (sortByHash l).Sorted hashLe :=
  foldl_insertPoint_sorted l [] (by simp [List.Sorted])

theorem foldl_insertPoint_perm (l : List (Nat × String)) :
    ∀ acc : List (Nat × String),
      (l.foldl (fun acc p => insertPoint p acc) acc).Perm (acc ++ l) := by
  induction l with
  | nil => intro acc; simp
  | cons p rest ih =>
    intro acc
    simp only [List.foldl_cons]
    refine (ih (insertPoint p acc)).trans ?_
    refine (List.Perm.append_right rest (insertPoint_perm p acc)).trans ?_
    exact (List.perm_middle).symm

theorem sortByHash_perm (l : List (Nat × String)) : (sortByHash l).Perm l := by
  simpa using foldl_insertPoint_perm l []

/-! ## The ring well-formedness invariant -/

/-- The multiset of virtual points contributed by a node registry. -/
def ringPoints (nodes : List (String × List Nat)) : List (Nat × String) :=
  nodes.flatMap (fun e => e.2.map (fun h => (h, e.1)))

/-- The structural invariant of every reachable `ConsistentHashRing` with
replication factor at least one: registry keys are distinct, the ring is
exactly the registry's virtual points (up to order), every registered node
has at least one virtual point, and the ring is sorted by hash. -/
structure RingWF (st : RingState) : Prop where
  nodupKeys : (st.nodes.map Prod.fst).Nodup
  perm : st.ring.Perm (ringPoints st.nodes)
  ptsNonempty : ∀ e ∈ st.nodes, e.2 ≠ []
  sorted : st.ring.Sorted hashLe

theorem lookup_isSome_iff_mem {α : Type} (l : List (String × α)) (k : String) :
    (l.lookup k).isSome ↔ k ∈ l.map Prod.fst := by
  induction l with
  | nil => simp [List.lookup_nil]
  | cons e rest ih =>
    obtain ⟨k', v'⟩ := e
    by_cases h : k = k'
    · subst h
      simp [List.lookup_cons]
    · have hb : (k == k') = false := beq_eq_false_iff_ne.mpr h
      simp [List.lookup_cons, hb, ih, h]

theorem ringWF_mkRing (rf : Nat) : RingWF (mkRing rf) :=
  ⟨List.nodup_nil, List.Perm.refl _, by simp [mkRing], by simp [mkRing, List.Sorted]⟩

theorem ringPoints_append (n1 n2 : List (String × List Nat)) :
    ringPoints (n1 ++ n2) = ringPoints n1 ++ ringPoints n2 := by
  simp [ringPoints]

theorem ringWF_add_node (st : RingState) (nodeId : String)
    (hrf : 1 ≤ st.replicationFactor) (h : RingWF st) : RingWF (add_node st nodeId) := by
  unfold add_node
  by_cases hp : (st.nodes.lookup nodeId).isSome
  · rw [if_pos hp]; exact h
  · rw [if_neg hp]
    have hnm : nodeId ∉ st.nodes.map Prod.fst := by
      rw [← lookup_isSome_iff_mem]
      exact fun hs => hp hs
    refine ⟨?_, ?_, ?_, ?_⟩
    · have hgoal : (st.nodes.map Prod.fst ++ [nodeId]).Nodup := by
        rw [List.nodup_append]
        refine ⟨h.nodupKeys, List.nodup_singleton _, ?_⟩
        intro a ha hb
        have : a = nodeId := by simpa using hb
        subst this
        exact hnm ha
      simpa using hgoal
    · refine (sortByHash_perm _).trans ?_
      rw [ringPoints_append]
      refine List.Perm.append h.perm ?_
      simp [ringPoints]
    · intro e he
      rcases List.mem_append.mp he with he | he
      · exact h.ptsNonempty e he
      · have he' : e = (nodeId, (List.range st.replicationFactor).map
            (fun i => hash_key (nodeId ++ ":" ++ toString i))) := by simpa using he
        rw [he']
        simp only [ne_eq, List.map_eq_nil_iff, List.range_eq_nil]
        omega
    · exact sortByHash_sorted _

theorem lookup_mem {α : Type} {l : List (String × α)} {k : String} {v : α}
    (h : l.lookup k = some v) : (k, v) ∈ l := by
  induction l with
  | nil => simp [List.lookup_nil] at h
  | cons e rest ih =>
    obtain ⟨k', v'⟩ := e
    rw [List.lookup_cons] at h
    by_cases hk : k = k'
    · subst hk
      simp at h
      simp [h]
    · have hb : (k == k') = false := beq_eq_false_iff_ne.mpr hk
      rw [hb] at h
      exact List.mem_cons_of_mem _ (ih h)

theorem ringPoints_filter_eraseP (nodeId : String) (pts : List Nat) :
    ∀ nodes : List (String × List Nat), (nodes.map Prod.fst).Nodup →
      nodes.lookup nodeId = some pts →
      (ringPoints nodes).filter (fun e => ¬(e.2 = nodeId ∧ e.1 ∈ pts))
        = ringPoints (nodes.eraseP (fun e => e.1 == nodeId)) := by
  intro nodes
  induction nodes with
  | nil => intro _ hl; simp [List.lookup_nil] at hl
  | cons e rest ih =>
    obtain ⟨k, v⟩ := e
    intro hnd hl
    rw [List.lookup_cons] at hl
    have hnd' : (rest.map Prod.fst).Nodup := (List.nodup_cons.mp hnd).2
    by_cases hk : nodeId = k
    · subst hk
      simp only [beq_self_eq_true] at hl
      have hv : v = pts := by simpa using hl
      subst hv
      have herase : (((nodeId, v) :: rest).eraseP (fun e => e.1 == nodeId)) = rest := by
        simp [List.eraseP_cons]
      rw [herase]
      show (ringPoints ((nodeId, v) :: rest)).filter _ = _
      have hsplit : ringPoints ((nodeId, v) :: rest)
          = v.map (fun h => (h, nodeId)) ++ ringPoints rest := by
        simp [ringPoints]
      rw [hsplit, List.filter_append]
      have h1 : (v.map (fun h => (h, nodeId))).filter
          (fun e => ¬(e.2 = nodeId ∧ e.1 ∈ v)) = [] := by
        rw [List.filter_eq_nil_iff]
        intro a ha
        rcases List.mem_map.mp ha with ⟨hh, hmem, rfl⟩
        simp [hmem]
      have h2 : (ringPoints rest).filter (fun e => ¬(e.2 = nodeId ∧ e.1 ∈ v))
          = ringPoints rest := by
        rw [List.filter_eq_self]
        intro a ha
        have hfs : a.2 ∈ rest.map Prod.fst := by
          rcases List.mem_flatMap.mp ha with ⟨en, hen, hain⟩
          rcases List.mem_map.mp hain with ⟨hh, _, rfl⟩
          exact List.mem_map.mpr ⟨en, hen, rfl⟩
        have hne : a.2 ≠ nodeId := by
          intro hEq
          rw [hEq] at hfs
          exact (List.nodup_cons.mp hnd).1 hfs
        simp [hne]
      rw [h1, h2, List.nil_append]
    · have hb : (nodeId == k) = false := beq_eq_false_iff_ne.mpr hk
      rw [hb] at hl
      have herase : (((k, v) :: rest).eraseP (fun e => e.1 == nodeId))
          = (k, v) :: rest.eraseP (fun e => e.1 == nodeId) := by
        have : ((k, v).1 == nodeId) = false := beq_eq_false_iff_ne.mpr (fun hh => hk hh.symm)
        simp [List.eraseP_cons, this]
      rw [herase]
      have hsplit : ringPoints ((k, v) :: rest)
          = v.map (fun h => (h, k)) ++ ringPoints rest := by
        simp [ringPoints]
      have hsplit2 : ringPoints ((k, v) :: rest.eraseP (fun e => e.1 == nodeId))
          = v.map (fun h => (h, k)) ++ ringPoints (rest.eraseP (fun e => e.1 == nodeId)) := by
        simp [ringPoints]
      rw [hsplit, hsplit2, List.filter_append]
      have h1 : (v.map (fun h => (h, k))).filter
          (fun e => ¬(e.2 = nodeId ∧ e.1 ∈ pts)) = v.map (fun h => (h, k)) := by
        rw [List.filter_eq_self]
        intro a ha
        rcases List.mem_map.mp ha with ⟨hh, _, rfl⟩
        simp [Ne.symm hk]
      have hl' : rest.lookup nodeId = some pts := hl
      rw [h1, ih hnd' hl']

theorem ringWF_remove_node (st : RingState) (nodeId : String) (h : RingWF st) :
    RingWF (remove_node st nodeId) := by
  unfold remove_node
  cases hl : st.nodes.lookup nodeId with
  | none => exact h
  | some pts =>
    refine ⟨?_, ?_, ?_, ?_⟩
    · exact h.nodupKeys.sublist (List.Sublist.map _ (List.eraseP_sublist _))
    · refine (h.perm.filter _).trans ?_
      rw [ringPoints_filter_eraseP nodeId pts st.nodes h.nodupKeys hl]
    · intro e he
      exact h.ptsNonempty e ((List.eraseP_sublist _).mem he)
    · exact h.sorted.filter _

theorem applyOp_replicationFactor (st : RingState) (op : RingOp) :
    (applyOp st op).replicationFactor = st.replicationFactor := by
  cases op with
  | add n =>
    show (add_node st n).replicationFactor = _
    unfold add_node
    by_cases hp : (st.nodes.lookup n).isSome
    · rw [if_pos hp]
    · rw [if_neg hp]
  | remove n =>
    show (remove_node st n).replicationFactor = _
    unfold remove_node
    cases st.nodes.lookup n <;> rfl

theorem ringWF_foldl (ops : List RingOp) :
    ∀ st : RingState, 1 ≤ st.replicationFactor → RingWF st →
      RingWF (ops.foldl applyOp st) := by
  induction ops with
  | nil => intro st _ h; exact h
  | cons op rest ih =>
    intro st hrf h
    simp only [List.foldl_cons]
    refine ih _ ?_ ?_
    · rw [applyOp_replicationFactor]; exact hrf
    · cases op with
      | add n => exact ringWF_add_node st n hrf h
      | remove n => exact ringWF_remove_node st n h

theorem ringWF_applyOps (rf : Nat) (ops : List RingOp) (hrf : 1 ≤ rf) :
    RingWF (applyOps rf ops) :=
  ringWF_foldl ops (mkRing rf) hrf (ringWF_mkRing rf)

theorem sorted_applyOp (st : RingState) (op : RingOp)
    (h : st.ring.Sorted hashLe) : (applyOp st op).ring.Sorted hashLe := by
  cases op with
  | add n =>
    show (add_node st n).ring.Sorted hashLe
    unfold add_node
    by_cases hp : (st.nodes.lookup n).isSome
    · rw [if_pos hp]; exact h
    · rw [if_neg hp]; exact sortByHash_sorted _
  | remove n =>
    show (remove_node st n).ring.Sorted hashLe
    unfold remove_node
    cases st.nodes.lookup n with
    | none => exact h
    | some pts => exact h.filter _

/-- C8: after every sequence of `add_node`/`remove_node` operations starting
from a fresh ring (any replication factor), the ring's `(hash, node_id)`
point list is sorted by hash value. -/
theorem ring_always_sorted (rf : Nat) (ops : List RingOp) :
    (applyOps rf ops).ring.Sorted hashLe := by
  unfold applyOps
  have : ∀ (l : List RingOp) (st : RingState), st.ring.Sorted hashLe →
      (l.foldl applyOp st).ring.Sorted hashLe := by
    intro l
    induction l with
    | nil => intro st h; exact h
    | cons op rest ih =>
      intro st h
      exact ih _ (sorted_applyOp st op h)
  exact this ops (mkRing rf) (by simp [mkRing, List.Sorted])

end DistSync

namespace DistSync

/-! ## The ring walk -/

/-- Node identifiers at the `fuel` ring positions starting at `i` (with
wrap-around): the sequence of identifiers the walk inspects. -/
def windowIds (ring : List (Nat × String)) (i fuel : Nat) : List String :=
  (List.range fuel).map (fun k => (ring.getD ((i + k) % ring.length) (0, "")).2)

theorem windowIds_zero (ring : List (Nat × String)) (i : Nat) :
    windowIds ring i 0 = [] := rfl

theorem windowIds_succ (ring : List (Nat × String)) (i fuel : Nat) :
    windowIds ring i (fuel + 1)
      = (ring.getD (i % ring.length) (0, "")).2 :: windowIds ring (i + 1) fuel := by
  unfold windowIds
  rw [List.range_succ_eq_map, List.map_cons, List.map_map]
  refine congrArg₂ List.cons (by simp) ?_
  apply List.map_congr_left
  intro k _
  simp only [Function.comp_apply, Nat.succ_eq_add_one]
  have hidx : i + (k + 1) = i + 1 + k := by omega
  rw [hidx]

theorem selAdd_pref (sel : List String) (n : String) : sel <+: selAdd sel n := by
  unfold selAdd
  by_cases h : n ∈ sel
  · rw [if_pos h]
  · rw [if_neg h]
    exact ⟨[n], rfl⟩

theorem foldl_selAdd_pref (w : List String) :
    ∀ sel : List String, sel <+: w.foldl selAdd sel := by
  induction w with
  | nil => intro sel; exact List.prefix_refl sel
  | cons n rest ih =>
    intro sel
    exact (selAdd_pref sel n).trans (ih (selAdd sel n))

theorem selAdd_sublist (sel : List String) (n : String) : sel.Sublist (selAdd sel n) := by
  unfold selAdd
  by_cases h : n ∈ sel
  · rw [if_pos h]
  · rw [if_neg h]
    exact List.sublist_append_left sel [n]

theorem foldl_selAdd_sublist (w : List String) :
    ∀ sel : List String, sel.Sublist (w.foldl selAdd sel) := by
  induction w with
  | nil => intro sel; exact List.Sublist.refl sel
  | cons n rest ih =>
    intro sel
    exact (selAdd_sublist sel n).trans (ih (selAdd sel n))

theorem length_selAdd_le (sel : List String) (n : String) :
    (selAdd sel n).length ≤ sel.length + 1 := by
  unfold selAdd
  by_cases h : n ∈ sel
  · rw [if_pos h]; omega
  · rw [if_neg h]; simp

theorem mem_foldl_selAdd (w : List String) :
    ∀ (sel : List String) (x : String), x ∈ w.foldl selAdd sel → x ∈ sel ∨ x ∈ w := by
  induction w with
  | nil => intro sel x hx; exact Or.inl hx
  | cons n rest ih =>
    intro sel x hx
    rcases ih (selAdd sel n) x hx with hs | hw
    · unfold selAdd at hs
      by_cases h : n ∈ sel
      · rw [if_pos h] at hs; exact Or.inl hs
      · rw [if_neg h] at hs
        rcases List.mem_append.mp hs with hs | hs
        · exact Or.inl hs
        · simp at hs
          exact Or.inr (by simp [hs])
    · exact Or.inr (List.mem_cons_of_mem n hw)

theorem mem_selAdd_self (sel : List String) (n : String) : n ∈ selAdd sel n := by
  unfold selAdd
  by_cases h : n ∈ sel
  · rw [if_pos h]; exact h
  · rw [if_neg h]; simp

theorem foldl_selAdd_mem_of_mem_w (w : List String) :
    ∀ (sel : List String) (x : String), x ∈ w → x ∈ w.foldl selAdd sel := by
  induction w with
  | nil => intro _ x hx; simp at hx
  | cons n rest ih =>
    intro sel x hx
    rcases List.mem_cons.mp hx with rfl | hx
    · exact (foldl_selAdd_sublist rest (selAdd sel x)).mem (mem_selAdd_self sel x)
    · exact ih (selAdd sel n) x hx

theorem foldl_selAdd_nodup (w : List String) :
    ∀ sel : List String, sel.Nodup → (w.foldl selAdd sel).Nodup := by
  induction w with
  | nil => intro sel h; exact h
  | cons n rest ih =>
    intro sel h
    refine ih (selAdd sel n) ?_
    unfold selAdd
    by_cases hn : n ∈ sel
    · rw [if_pos hn]; exact h
    · rw [if_neg hn]
      simpa [List.nodup_append] using ⟨h, hn⟩

/-- If the walk answers, its answer is the first-seen deduplication of the
inspected window, truncated at the target (or at the starting selection if
that is already long enough). -/
theorem walkAux_some (ring : List (Nat × String)) (target : Nat) (fuel : Nat) :
    ∀ (i : Nat) (sel l : List String), walkAux ring target fuel i sel = some l →
      l = ((windowIds ring i fuel).foldl selAdd sel).take (max target sel.length) := by
  induction fuel with
  | zero =>
    intro i sel l h
    unfold walkAux at h
    by_cases hlen : sel.length < target
    · rw [if_pos hlen] at h; exact absurd h (by simp)
    · rw [if_neg hlen] at h
      have hl : l = sel := by simpa using h.symm
      subst hl
      rw [windowIds_zero]
      exact (List.take_of_length_le (by omega)).symm
  | succ fuel ih =>
    intro i sel l h
    unfold walkAux at h
    by_cases hlen : sel.length < target
    · rw [if_pos hlen] at h
      have := ih (i + 1) _ l h
      rw [windowIds_succ, List.foldl_cons]
      rw [this]
      congr 1
      have h1 := length_selAdd_le sel ((ring.getD (i % ring.length) (0, "")).2)
      have h2 := (selAdd_sublist sel ((ring.getD (i % ring.length) (0, "")).2)).length_le
      omega
    · rw [if_neg hlen] at h
      have hl : l = sel := by simpa using h.symm
      subst hl
      have hmax : max target l.length = l.length := by omega
      rw [hmax]
      exact List.prefix_iff_eq_take.mp (foldl_selAdd_pref (windowIds ring i (fuel + 1)) l)

/-- The walk answers whenever the deduplicated window reaches the target. -/
theorem walkAux_isSome (ring : List (Nat × String)) (target : Nat) (fuel : Nat) :
    ∀ (i : Nat) (sel : List String),
      target ≤ ((windowIds ring i fuel).foldl selAdd sel).length →
      ∃ l, walkAux ring target fuel i sel = some l := by
  induction fuel with
  | zero =>
    intro i sel h
    rw [windowIds_zero] at h
    simp at h
    refine ⟨sel, ?_⟩
    unfold walkAux
    rw [if_neg (by omega)]
  | succ fuel ih =>
    intro i sel h
    by_cases hlen : sel.length < target
    · rw [windowIds_succ, List.foldl_cons] at h
      obtain ⟨l, hl⟩ := ih (i + 1) _ h
      refine ⟨l, ?_⟩
      unfold walkAux
      rw [if_pos hlen]
      exact hl
    · refine ⟨sel, ?_⟩
      unfold walkAux
      rw [if_neg hlen]

end DistSync

namespace DistSync

/-! ## Coverage of the walk window -/

theorem windowIds_eq_rotate (ring : List (Nat × String)) (i : Nat) (hne : ring ≠ []) :
    windowIds ring i ring.length = (ring.rotate i).map Prod.snd := by
  have hlen : 0 < ring.length := List.length_pos_of_ne_nil hne
  apply List.ext_getElem
  · simp [windowIds]
  · intro k h1 h2
    have hk : k < ring.length := by simpa [windowIds] using h1
    have hmod : (k + i) % ring.length < ring.length := Nat.mod_lt _ hlen
    simp only [windowIds, List.getElem_map, List.getElem_range]
    rw [Nat.add_comm i k]
    rw [List.getD_eq_getElem ring (0, "") hmod]
    have hkr : k < (ring.rotate i).length := by simpa using hk
    have h3 := List.get_rotate ring i ⟨k, hkr⟩
    simp only [List.get_eq_getElem] at h3
    rw [h3]

theorem windowIds_covers (ring : List (Nat × String)) (i : Nat) (hne : ring ≠ [])
    {e : Nat × String} (he : e ∈ ring) : e.2 ∈ windowIds ring i ring.length := by
  rw [windowIds_eq_rotate ring i hne]
  exact List.mem_map.mpr ⟨e, (List.rotate_perm ring i).mem_iff.mpr he, rfl⟩

theorem windowIds_subset (ring : List (Nat × String)) (i : Nat) (hne : ring ≠ [])
    {x : String} (hx : x ∈ windowIds ring i ring.length) : x ∈ ring.map Prod.snd := by
  rw [windowIds_eq_rotate ring i hne] at hx
  rcases List.mem_map.mp hx with ⟨e, he, rfl⟩
  exact List.mem_map.mpr ⟨e, (List.rotate_perm ring i).mem_iff.mp he, rfl⟩

/-! ## Consequences of the ring invariant -/

theorem ringWF_key_mem_ringIds {st : RingState} (h : RingWF st) :
    ∀ k ∈ st.nodes.map Prod.fst, ∃ e ∈ st.ring, e.2 = k := by
  intro k hk
  rcases List.mem_map.mp hk with ⟨en, hen, rfl⟩
  have hne := h.ptsNonempty en hen
  obtain ⟨p, hp⟩ := List.exists_mem_of_ne_nil _ hne
  refine ⟨(p, en.1), ?_, rfl⟩
  refine h.perm.mem_iff.mpr ?_
  exact List.mem_flatMap.mpr ⟨en, hen, List.mem_map.mpr ⟨p, hp, rfl⟩⟩

theorem ringWF_ringIds_mem_keys {st : RingState} (h : RingWF st) :
    ∀ e ∈ st.ring, e.2 ∈ st.nodes.map Prod.fst := by
  intro e he
  have := h.perm.mem_iff.mp he
  rcases List.mem_flatMap.mp this with ⟨en, hen, hein⟩
  rcases List.mem_map.mp hein with ⟨p, _, rfl⟩
  exact List.mem_map.mpr ⟨en, hen, rfl⟩

theorem ringWF_ring_nil_iff {st : RingState} (h : RingWF st) :
    st.ring = [] ↔ st.nodes = [] := by
  constructor
  · intro hr
    by_contra hn
    obtain ⟨en, hen⟩ := List.exists_mem_of_ne_nil _ hn
    obtain ⟨e, he, _⟩ := ringWF_key_mem_ringIds h en.1 (List.mem_map.mpr ⟨en, hen, rfl⟩)
    rw [hr] at he
    simp at he
  · intro hn
    have hperm := h.perm
    rw [hn] at hperm
    have hrp : ringPoints [] = [] := rfl
    rw [hrp] at hperm
    exact hperm.eq_nil

/-- The behaviour of `get_nodes_for_key` on a well-formed ring: the walk
terminates within `ring.length` steps and returns `min count |N|` distinct
registered node identifiers (and `[]` on an empty ring). -/
theorem get_nodes_spec {st : RingState} (h : RingWF st) (key : String) (count : Nat) :
    ∃ l, get_nodes_for_key st key count = some l
      ∧ l.length = min count st.nodes.length
      ∧ l.Nodup
      ∧ (∀ x ∈ l, x ∈ nodesList st)
      ∧ (st.ring = [] → l = []) := by
  by_cases hr : st.ring = []
  · have hn : st.nodes = [] := (ringWF_ring_nil_iff h).mp hr
    refine ⟨[], ?_, ?_, List.nodup_nil, ?_, fun _ => rfl⟩
    · unfold get_nodes_for_key
      rw [if_pos hr]
    · simp [hn]
    · simp
  · have hkeysub : ∀ k ∈ st.nodes.map Prod.fst,
        k ∈ (windowIds st.ring (bisectRight st.ring (hash_key key, "")) st.ring.length).foldl
          selAdd [] := by
      intro k hk
      obtain ⟨e, he, hek⟩ := ringWF_key_mem_ringIds h k hk
      rw [← hek]
      exact foldl_selAdd_mem_of_mem_w _ [] _ (windowIds_covers st.ring _ hr he)
    have hDnodup := foldl_selAdd_nodup
      (windowIds st.ring (bisectRight st.ring (hash_key key, "")) st.ring.length) [] List.nodup_nil
    have hlen : st.nodes.length ≤ ((windowIds st.ring
        (bisectRight st.ring (hash_key key, "")) st.ring.length).foldl selAdd []).length := by
      have := (h.nodupKeys.subperm hkeysub).length_le
      simpa using this
    have htarget : min count st.nodes.length ≤ ((windowIds st.ring
        (bisectRight st.ring (hash_key key, "")) st.ring.length).foldl selAdd []).length :=
      le_trans (min_le_right _ _) hlen
    obtain ⟨l, hl⟩ := walkAux_isSome st.ring (min count st.nodes.length) st.ring.length
      (bisectRight st.ring (hash_key key, "")) [] htarget
    have hleq : l = ((windowIds st.ring (bisectRight st.ring (hash_key key, ""))
        st.ring.length).foldl selAdd []).take (min count st.nodes.length) := by
      have := walkAux_some st.ring (min count st.nodes.length) st.ring.length
        (bisectRight st.ring (hash_key key, "")) [] l hl
      simpa using this
    refine ⟨l, ?_, ?_, ?_, ?_, fun hcon => absurd hcon hr⟩
    · unfold get_nodes_for_key
      rw [if_neg hr]
      exact hl
    · rw [hleq, List.length_take]
      omega
    · rw [hleq]
      exact (List.take_sublist _ _).nodup hDnodup
    · intro x hx
      rw [hleq] at hx
      have hxD := List.mem_of_mem_take hx
      rcases mem_foldl_selAdd _ [] x hxD with h0 | hw0
      · simp at h0
      · have hxr := windowIds_subset st.ring _ hr hw0
        rcases List.mem_map.mp hxr with ⟨e, he, rfl⟩
        exact ringWF_ringIds_mem_keys h e he

end DistSync

namespace DistSync

/-! ## C2 and C9: ring membership and termination -/

/-- C2 counterexample: with replication factor 0 (a constructible ring), one
`add_node` yields node set of size 1 but an empty point list, so
`get_nodes_for_key("k", 1)` returns `[]` — not `min(1, |N|) = 1` distinct
identifiers as the claim requires for every ring built by add/remove calls. -/
theorem get_nodes_membership_cx :
    get_nodes_for_key (applyOps 0 [RingOp.add "a"]) "k" 1 = some []
    ∧ (applyOps 0 [RingOp.add "a"]).nodes.length = 1
    ∧ ([] : List String).length ≠ min 1 (applyOps 0 [RingOp.add "a"]).nodes.length := by
  decide

/-- C2 (amended: for rings whose replication factor is at least 1 — the
repository instantiates 100, 128 or 16): for every ring built by a sequence
of `add_node`/`remove_node` calls yielding node set N, every key and every
count, `get_nodes_for_key(key, count)` returns exactly `min(count, |N|)`
distinct node identifiers, all drawn from N, and returns the empty list when
the ring is empty. -/
theorem get_nodes_membership (rf : Nat) (ops : List RingOp) (key : String) (count : Nat)
    (hrf : 1 ≤ rf) :
    ∃ l, get_nodes_for_key (applyOps rf ops) key count = some l
      ∧ l.length = min count (applyOps rf ops).nodes.length
      ∧ l.Nodup
      ∧ (∀ x ∈ l, x ∈ nodesList (applyOps rf ops))
      ∧ ((applyOps rf ops).ring = [] → l = []) :=
  get_nodes_spec (ringWF_applyOps rf ops hrf) key count

theorem get_nodes_membership_witness :
    1 ≤ 1
    ∧ ∃ l, get_nodes_for_key (applyOps 1 [RingOp.add "a"]) "k" 2 = some l
      ∧ l.length = min 2 (applyOps 1 [RingOp.add "a"]).nodes.length
      ∧ l.Nodup
      ∧ (∀ x ∈ l, x ∈ nodesList (applyOps 1 [RingOp.add "a"]))
      ∧ ((applyOps 1 [RingOp.add "a"]).ring = [] → l = []) :=
  ⟨Nat.le_refl 1, get_nodes_membership 1 [RingOp.add "a"] "k" 2 (Nat.le_refl 1)⟩

/-- C9: on every ring reachable by `add_node`/`remove_node` sequences with
replication factor ≥ 1, the `get_nodes_for_key` walk terminates (within
`ring.length` iterations): every registered node contributes at least one
ring entry, so the walk can collect `min(count, |N|)` distinct identifiers. -/
theorem get_nodes_terminates (rf : Nat) (ops : List RingOp) (key : String) (count : Nat)
    (hrf : 1 ≤ rf) :
    (get_nodes_for_key (applyOps rf ops) key count).isSome := by
  obtain ⟨l, hl, _⟩ := get_nodes_spec (ringWF_applyOps rf ops hrf) key count
  simp [hl]

theorem get_nodes_terminates_witness :
    1 ≤ 1
    ∧ (get_nodes_for_key (applyOps 1 [RingOp.add "a", RingOp.remove "a", RingOp.add "b"])
        "x" 3).isSome :=
  ⟨Nat.le_refl 1,
   get_nodes_terminates 1 [RingOp.add "a", RingOp.remove "a", RingOp.add "b"] "x" 3
     (Nat.le_refl 1)⟩

end DistSync

namespace DistSync

/-! ## Binary search correctness (for the C3 start-position analysis) -/

theorem takeWhile_getD_true {α : Type} (p : α → Bool) (d : α) :
    ∀ (l : List α) (i : Nat), i < (l.takeWhile p).length → p (l.getD i d) = true := by
  intro l
  induction l with
  | nil => intro i h; simp [List.takeWhile] at h
  | cons a t ih =>
    intro i h
    rw [List.takeWhile_cons] at h
    by_cases hp : p a
    · rw [if_pos hp] at h
      cases i with
      | zero => simpa using hp
      | succ i =>
        rw [List.getD_cons_succ]
        exact ih i (by simpa using h)
    · rw [if_neg hp] at h
      simp at h

theorem takeWhile_after_false {α : Type} (p : α → Bool) (d : α) :
    ∀ l : List α, (l.takeWhile p).length < l.length →
      p (l.getD (l.takeWhile p).length d) = false := by
  intro l
  induction l with
  | nil => intro h; simp at h
  | cons a t ih =>
    intro h
    rw [List.takeWhile_cons] at h ⊢
    by_cases hp : p a
    · rw [if_pos hp] at h ⊢
      simp only [List.length_cons] at h ⊢
      rw [List.getD_cons_succ]
      exact ih (by omega)
    · rw [if_neg hp] at h ⊢
      simpa using hp

theorem bisectAux_eq (a : List (Nat × String)) (x : Nat × String)
    (mono : ∀ i j : Nat, i ≤ j → j < a.length →
      pairLt x (a.getD i (0, "")) → pairLt x (a.getD j (0, ""))) :
    ∀ (fuel lo hi : Nat), hi - lo < fuel → hi ≤ a.length →
      lo ≤ (a.takeWhile (fun e => !decide (pairLt x e))).length →
      (a.takeWhile (fun e => !decide (pairLt x e))).length ≤ hi →
      bisectAux a x fuel lo hi
        = (a.takeWhile (fun e => !decide (pairLt x e))).length := by
  have hbelow : ∀ i, i < (a.takeWhile (fun e => !decide (pairLt x e))).length →
      ¬ pairLt x (a.getD i (0, "")) := by
    intro i hi
    have := takeWhile_getD_true (fun e => !decide (pairLt x e)) (0, "") a i hi
    simpa using this
  have habove : ∀ i, (a.takeWhile (fun e => !decide (pairLt x e))).length ≤ i →
      i < a.length → pairLt x (a.getD i (0, "")) := by
    intro i hFi hil
    have hFlt : (a.takeWhile (fun e => !decide (pairLt x e))).length < a.length :=
      lt_of_le_of_lt hFi hil
    have hPF := takeWhile_after_false (fun e => !decide (pairLt x e)) (0, "") a hFlt
    exact mono _ i hFi hil (by simpa using hPF)
  intro fuel
  induction fuel with
  | zero => intro lo hi h _ _ _; omega
  | succ fuel ih =>
    intro lo hi hfuel hhi hlo hFhi
    unfold bisectAux
    by_cases hlh : lo < hi
    · rw [if_pos hlh]
      show (if pairLt x (a.getD ((lo + hi) / 2) (0, "")) then
          bisectAux a x fuel lo ((lo + hi) / 2)
        else bisectAux a x fuel ((lo + hi) / 2 + 1) hi) = _
      by_cases hp : pairLt x (a.getD ((lo + hi) / 2) (0, ""))
      · rw [if_pos hp]
        have hFmid : (a.takeWhile (fun e => !decide (pairLt x e))).length ≤ (lo + hi) / 2 := by
          by_contra hc
          exact (hbelow _ (by omega)) hp
        exact ih lo ((lo + hi) / 2) (by omega) (by omega) hlo hFmid
      · rw [if_neg hp]
        have hmidF : (lo + hi) / 2 < (a.takeWhile (fun e => !decide (pairLt x e))).length := by
          by_contra hc
          exact hp (habove _ (by omega) (by omega))
        exact ih ((lo + hi) / 2 + 1) hi (by omega) hhi (by omega) hFhi
    · rw [if_neg hlh]
      omega

theorem bisectRight_eq (a : List (Nat × String)) (x : Nat × String)
    (mono : ∀ i j : Nat, i ≤ j → j < a.length →
      pairLt x (a.getD i (0, "")) → pairLt x (a.getD j (0, ""))) :
    bisectRight a x = (a.takeWhile (fun e => !decide (pairLt x e))).length := by
  have hFle : (a.takeWhile (fun e => !decide (pairLt x e))).length ≤ a.length :=
    (List.takeWhile_sublist (fun e => !decide (pairLt x e))).length_le
  exact bisectAux_eq a x mono (a.length + 1) 0 a.length (by omega) (le_refl _)
    (Nat.zero_le _) hFle

end DistSync

namespace DistSync

/-! ## Monotonicity of the bisect predicate on sorted rings -/

theorem str_ne_empty_data {s : String} (h : s ≠ "") : s.data ≠ [] := by
  intro hd
  apply h
  cases s with
  | mk d =>
    have hd' : d = [] := hd
    rw [hd']

theorem empty_lt_data {s : String} (h : s ≠ "") : ([] : List Char) < s.data := by
  cases hsd : s.data with
  | nil => exact absurd hsd (str_ne_empty_data h)
  | cons c t => exact List.nil_lt_cons c t

theorem pairLt_mono_of_sorted (a : List (Nat × String)) (hs : a.Sorted hashLe)
    (hids : ∀ e ∈ a, e.2 ≠ "") (h : Nat) :
    ∀ i j : Nat, i ≤ j → j < a.length →
      pairLt (h, "") (a.getD i (0, "")) → pairLt (h, "") (a.getD j (0, "")) := by
  intro i j hij hj hp
  have hi : i < a.length := lt_of_le_of_lt hij hj
  rw [List.getD_eq_getElem a (0, "") hi] at hp
  rw [List.getD_eq_getElem a (0, "") hj]
  rcases Nat.eq_or_lt_of_le hij with rfl | hlt
  · exact hp
  · have hle : a[i].1 ≤ a[j].1 := by
      have := List.pairwise_iff_get.mp hs ⟨i, hi⟩ ⟨j, hj⟩ hlt
      simpa [hashLe, List.get_eq_getElem] using this
    have hjne : a[j].2 ≠ "" := hids a[j] (List.getElem_mem hj)
    rcases hp with hp | ⟨heq, _⟩
    · exact Or.inl (lt_of_lt_of_le hp hle)
    · rcases Nat.lt_or_ge h a[j].1 with hlt2 | hge
      · exact Or.inl hlt2
      · have heq2 : h = a[j].1 := by omega
        exact Or.inr ⟨heq2, empty_lt_data hjne⟩

/-! ## Spec-side walk definitions (C3) -/

/-- Modelled from the spec (§4.2 `get_nodes_for_key`), with the start
position as the claim states it: the first ring entry whose hash is
**strictly greater** than the key hash, wrapping to the start of the sorted
list when no such entry exists; then walk forward with wrap-around,
collecting each entry's node identifier the first time it is seen, until
`count` distinct identifiers are collected or all registered nodes are
exhausted. -/
def specGetNodesStrict (st : RingState) (key : String) (count : Nat) : List String :=
  if st.ring = [] then []
  else
    let idx := (st.ring.takeWhile (fun e => decide (e.1 ≤ hash_key key))).length
    let start := if idx = st.ring.length then 0 else idx
    ((windowIds st.ring start st.ring.length).foldl selAdd []).take count

/-- Modelled from the spec, with the start position amended to what the
code's `bisect_right(ring, (key_hash, ""))` computes: the first ring entry
whose `(hash, node_id)` pair is lexicographically greater than
`(hash_key key, "")` — for rings whose node identifiers are non-empty, the
first entry whose hash is greater than **or equal to** the key hash —
wrapping to the start when no such entry exists. -/
def specGetNodesUB (st : RingState) (key : String) (count : Nat) : List String :=
  if st.ring = [] then []
  else
    let idx := (st.ring.takeWhile (fun e => !decide (pairLt (hash_key key, "") e))).length
    let start := if idx = st.ring.length then 0 else idx
    ((windowIds st.ring start st.ring.length).foldl selAdd []).take count

theorem windowIds_wrap (ring : List (Nat × String)) (fuel : Nat) :
    windowIds ring ring.length fuel = windowIds ring 0 fuel := by
  unfold windowIds
  apply List.map_congr_left
  intro k _
  have heq : (ring.length + k) % ring.length = (0 + k) % ring.length := by
    rw [Nat.add_mod_left, Nat.zero_add]
  rw [heq]

end DistSync

namespace DistSync

/-! ## C3: the walk's start position -/

theorem nodes_keys_prop (P : String → Prop) :
    ∀ (ops : List RingOp) (st : RingState), (∀ e ∈ st.nodes, P e.1) →
      (∀ op ∈ ops, P op.nodeId) → ∀ e ∈ (ops.foldl applyOp st).nodes, P e.1 := by
  intro ops
  induction ops with
  | nil => intro st h _ e he; exact h e he
  | cons op rest ih =>
    intro st h hops e he
    simp only [List.foldl_cons] at he
    refine ih (applyOp st op) ?_ (fun o ho => hops o (List.mem_cons_of_mem _ ho)) e he
    intro e' he'
    cases op with
    | add n =>
      have : (applyOp st (RingOp.add n)) = add_node st n := rfl
      rw [this] at he'
      unfold add_node at he'
      by_cases hp : (st.nodes.lookup n).isSome
      · rw [if_pos hp] at he'
        exact h e' he'
      · rw [if_neg hp] at he'
        rcases List.mem_append.mp he' with he' | he'
        · exact h e' he'
        · have he2 : e' = (n, (List.range st.replicationFactor).map
              (fun i => hash_key (n ++ ":" ++ toString i))) := by simpa using he'
          rw [he2]
          exact hops (RingOp.add n) (List.mem_cons_self _ _)
    | remove n =>
      have hrn : (applyOp st (RingOp.remove n)) = remove_node st n := rfl
      rw [hrn] at he'
      unfold remove_node at he'
      cases hlk : st.nodes.lookup n with
      | none =>
        rw [hlk] at he'
        exact h e' he'
      | some pts =>
        rw [hlk] at he'
        exact h e' ((List.eraseP_sublist _).mem he')

theorem get_nodes_eq_take {st : RingState} (h : RingWF st) (key : String) (count : Nat)
    (hr : st.ring ≠ []) :
    get_nodes_for_key st key count
      = some (((windowIds st.ring (bisectRight st.ring (hash_key key, ""))
          st.ring.length).foldl selAdd []).take (min count st.nodes.length)) := by
  have hkeysub : ∀ k ∈ st.nodes.map Prod.fst,
      k ∈ (windowIds st.ring (bisectRight st.ring (hash_key key, "")) st.ring.length).foldl
        selAdd [] := by
    intro k hk
    obtain ⟨e, he, hek⟩ := ringWF_key_mem_ringIds h k hk
    rw [← hek]
    exact foldl_selAdd_mem_of_mem_w _ [] _ (windowIds_covers st.ring _ hr he)
  have hlen : st.nodes.length ≤ ((windowIds st.ring
      (bisectRight st.ring (hash_key key, "")) st.ring.length).foldl selAdd []).length := by
    have := (h.nodupKeys.subperm hkeysub).length_le
    simpa using this
  obtain ⟨l, hl⟩ := walkAux_isSome st.ring (min count st.nodes.length) st.ring.length
    (bisectRight st.ring (hash_key key, "")) []
    (le_trans (min_le_right _ _) hlen)
  have hleq : l = ((windowIds st.ring (bisectRight st.ring (hash_key key, ""))
      st.ring.length).foldl selAdd []).take (min count st.nodes.length) := by
    have := walkAux_some st.ring (min count st.nodes.length) st.ring.length
      (bisectRight st.ring (hash_key key, "")) [] l hl
    simpa using this
  unfold get_nodes_for_key
  rw [if_neg hr, hl]
  exact congrArg some hleq

theorem foldl_window_length {st : RingState} (h : RingWF st) (hr : st.ring ≠ []) (i : Nat) :
    ((windowIds st.ring i st.ring.length).foldl selAdd []).length = st.nodes.length := by
  apply le_antisymm
  · have hsub : ∀ x ∈ (windowIds st.ring i st.ring.length).foldl selAdd [],
        x ∈ st.nodes.map Prod.fst := by
      intro x hx
      rcases mem_foldl_selAdd _ [] x hx with h0 | hw0
      · simp at h0
      · have hxr := windowIds_subset st.ring i hr hw0
        rcases List.mem_map.mp hxr with ⟨e, he, rfl⟩
        exact ringWF_ringIds_mem_keys h e he
    have := ((foldl_selAdd_nodup _ [] List.nodup_nil).subperm hsub).length_le
    simpa using this
  · have hkeysub : ∀ k ∈ st.nodes.map Prod.fst,
        k ∈ (windowIds st.ring i st.ring.length).foldl selAdd [] := by
      intro k hk
      obtain ⟨e, he, hek⟩ := ringWF_key_mem_ringIds h k hk
      rw [← hek]
      exact foldl_selAdd_mem_of_mem_w _ [] _ (windowIds_covers st.ring i hr he)
    have := (h.nodupKeys.subperm hkeysub).length_le
    simpa using this

/-- C3 (amended): on every ring built with replication factor ≥ 1 from
non-empty node identifiers, `get_nodes_for_key` begins its walk at the first
ring entry whose `(hash, node_id)` pair is lexicographically greater than
`(hash(key), "")` — equivalently, the first entry whose hash is greater than
**or equal to** `hash(key)` — wrapping to the start of the sorted list when
no such entry exists, and collects node identifiers in walk order, each the
first time it is seen; a ring entry whose hash equals `hash(key)` **is** the
starting entry when one exists. -/
theorem get_nodes_start (rf : Nat) (ops : List RingOp) (key : String) (count : Nat)
    (hrf : 1 ≤ rf) (hids : ∀ op ∈ ops, RingOp.nodeId op ≠ "") :
    get_nodes_for_key (applyOps rf ops) key count
      = some (specGetNodesUB (applyOps rf ops) key count) := by
  have hWF : RingWF (applyOps rf ops) := ringWF_applyOps rf ops hrf
  by_cases hr : (applyOps rf ops).ring = []
  · unfold get_nodes_for_key specGetNodesUB
    rw [if_pos hr, if_pos hr]
  · have hidsr : ∀ e ∈ (applyOps rf ops).ring, e.2 ≠ "" := by
      intro e he
      have hkeys := ringWF_ringIds_mem_keys hWF e he
      rcases List.mem_map.mp hkeys with ⟨en, hen, hfst⟩
      rw [← hfst]
      exact nodes_keys_prop (fun k => k ≠ "") ops (mkRing rf) (by simp [mkRing]) hids en hen
    have hmono := pairLt_mono_of_sorted _ hWF.sorted hidsr (hash_key key)
    have hbr := bisectRight_eq (applyOps rf ops).ring (hash_key key, "") hmono
    rw [get_nodes_eq_take hWF key count hr]
    unfold specGetNodesUB
    rw [if_neg hr]
    refine congrArg some ?_
    show (((windowIds (applyOps rf ops).ring
        (bisectRight (applyOps rf ops).ring (hash_key key, ""))
        (applyOps rf ops).ring.length).foldl selAdd []).take
          (min count (applyOps rf ops).nodes.length))
      = (((windowIds (applyOps rf ops).ring
        (if ((applyOps rf ops).ring.takeWhile
              (fun e => !decide (pairLt (hash_key key, "") e))).length
            = (applyOps rf ops).ring.length then 0
          else ((applyOps rf ops).ring.takeWhile
              (fun e => !decide (pairLt (hash_key key, "") e))).length)
        (applyOps rf ops).ring.length).foldl selAdd []).take count)
    rw [hbr]
    have hwin : windowIds (applyOps rf ops).ring
        (if ((applyOps rf ops).ring.takeWhile
              (fun e => !decide (pairLt (hash_key key, "") e))).length
            = (applyOps rf ops).ring.length then 0
          else ((applyOps rf ops).ring.takeWhile
              (fun e => !decide (pairLt (hash_key key, "") e))).length)
        (applyOps rf ops).ring.length
        = windowIds (applyOps rf ops).ring
            (((applyOps rf ops).ring.takeWhile
              (fun e => !decide (pairLt (hash_key key, "") e))).length)
            (applyOps rf ops).ring.length := by
      by_cases hF : ((applyOps rf ops).ring.takeWhile
          (fun e => !decide (pairLt (hash_key key, "") e))).length
          = (applyOps rf ops).ring.length
      · rw [if_pos hF, hF, windowIds_wrap]
      · rw [if_neg hF]
    rw [hwin]
    have hL := foldl_window_length hWF hr
      (((applyOps rf ops).ring.takeWhile
        (fun e => !decide (pairLt (hash_key key, "") e))).length)
    by_cases hc : count ≤ (applyOps rf ops).nodes.length
    · rw [min_eq_left hc]
    · rw [min_eq_right (le_of_not_le hc)]
      rw [List.take_of_length_le (by omega), List.take_of_length_le (by omega)]

set_option maxRecDepth 2000000 in
/-- C3 counterexample: with nodes "a" and "b" at replication factor 1 and the
key "a:0" (whose hash is exactly the hash of node "a"'s single virtual
point), the code returns ["a"] — its walk starts **at** the entry whose hash
equals the key hash — while the claimed strictly-greater start would return
["b"]. -/
theorem get_nodes_start_cx :
    get_nodes_for_key (applyOps 1 [RingOp.add "a", RingOp.add "b"]) "a:0" 1 = some ["a"]
    ∧ specGetNodesStrict (applyOps 1 [RingOp.add "a", RingOp.add "b"]) "a:0" 1 = ["b"]
    ∧ ((applyOps 1 [RingOp.add "a", RingOp.add "b"]).ring.getD
        (bisectRight (applyOps 1 [RingOp.add "a", RingOp.add "b"]).ring
          (hash_key "a:0", "")) (0, "")).1 = hash_key "a:0"
    ∧ (["a"] : List String) ≠ ["b"] := by
  refine ⟨?_, ?_, ?_, ?_⟩ <;> decide

set_option maxRecDepth 2000000 in
theorem get_nodes_start_witness :
    1 ≤ 1
    ∧ (∀ op ∈ [RingOp.add "a", RingOp.add "b"], RingOp.nodeId op ≠ "")
    ∧ get_nodes_for_key (applyOps 1 [RingOp.add "a", RingOp.add "b"]) "file.txt:0" 1
        = some (specGetNodesUB (applyOps 1 [RingOp.add "a", RingOp.add "b"]) "file.txt:0" 1) :=
  ⟨Nat.le_refl 1, by decide,
   get_nodes_start 1 [RingOp.add "a", RingOp.add "b"] "file.txt:0" 1 (Nat.le_refl 1)
     (by decide)⟩

end DistSync

namespace DistSync

/-! ## C4: upload rejection with atomicity -/

theorem compute_placements_none (ring : RingState) (hWF : RingWF ring) (repl : Nat)
    (live : List String) (filename : String) :
    ∀ chunks : List FileChunk,
      (∃ c ∈ chunks, ((get_nodes_for_key ring (filename ++ ":" ++ toString c.chunk_id)
          repl).getD []).filter (fun n => n ∈ live) = []) →
      compute_placements ring repl live filename chunks = some none := by
  intro chunks
  induction chunks with
  | nil => intro h; simp at h
  | cons c rest ih =>
    intro hex
    rcases hex with ⟨c', hc', hf⟩
    obtain ⟨l, hl, -, -, -, -⟩ := get_nodes_spec hWF (filename ++ ":" ++ toString c.chunk_id) repl
    simp only [compute_placements, hl]
    by_cases hfc : List.filter (fun n => decide (n ∈ live)) l = []
    · rw [if_pos hfc]
    · rw [if_neg hfc]
      have hc'' : c' ∈ rest := by
        rcases List.mem_cons.mp hc' with rfl | h2
        · exfalso
          apply hfc
          simpa [hl] using hf
        · exact h2
      rw [ih ⟨c', hc'', hf⟩]

/-- C4: `UploadFile` returns the ordinary status message "no data" on an
empty input stream, "no live nodes" when no node's heartbeat is within the
10-second window, and "no live nodes for chunk" when some buffered chunk's
live-filtered candidate list is empty; in each case the call returns a value
(no transport error) and the whole system state — in particular the file
index, the persisted metadata document and every node's store — is returned
unchanged: no `StoreChunk` is attempted and no metadata save occurs. -/
theorem upload_rejections (sys : SystemState) (now : Int) (chunks : List FileChunk)
    (hWF : RingWF sys.master.ring) :
    (chunks = [] → UploadFile sys now chunks = some ("no data", sys))
    ∧ (chunks ≠ [] → live_nodes sys.master now = [] →
        UploadFile sys now chunks = some ("no live nodes", sys))
    ∧ (chunks ≠ [] → live_nodes sys.master now ≠ [] →
        (∃ c ∈ chunks,
          ((get_nodes_for_key sys.master.ring
              ((chunks.headD ⟨"", [], 0, 0⟩).filename ++ ":" ++ toString c.chunk_id)
              sys.master.replication).getD []).filter
            (fun n => n ∈ live_nodes sys.master now) = []) →
        UploadFile sys now chunks = some ("no live nodes for chunk", sys)) := by
  refine ⟨?_, ?_, ?_⟩
  · intro hc
    subst hc
    rfl
  · intro hc hlive
    cases chunks with
    | nil => exact absurd rfl hc
    | cons first rest =>
      simp only [UploadFile]
      rw [if_pos hlive]
  · intro hc hlive hex
    cases chunks with
    | nil => exact absurd rfl hc
    | cons first rest =>
      simp only [UploadFile]
      rw [if_neg hlive]
      have hcp := compute_placements_none sys.master.ring hWF sys.master.replication
        (live_nodes sys.master now) first.filename (first :: rest) (by simpa using hex)
      rw [hcp]

def exampleDeadMaster : MasterState :=
  ⟨2, add_node (mkRing 1) "n1", [("n1", "127.0.0.1:50051")], [("n1", 0)], [],
   ⟨[("n1", "127.0.0.1:50051")], []⟩⟩

def exampleDeadSystem : SystemState := ⟨exampleDeadMaster, [("n1", [])]⟩

set_option maxRecDepth 2000000 in
theorem upload_rejections_witness :
    RingWF exampleDeadSystem.master.ring
    ∧ (([FileChunk.mk "f" [1] 0 1] : List FileChunk) = [] →
        UploadFile exampleDeadSystem 100 [FileChunk.mk "f" [1] 0 1]
          = some ("no data", exampleDeadSystem))
    ∧ (([FileChunk.mk "f" [1] 0 1] : List FileChunk) ≠ [] →
        live_nodes exampleDeadSystem.master 100 = [] →
        UploadFile exampleDeadSystem 100 [FileChunk.mk "f" [1] 0 1]
          = some ("no live nodes", exampleDeadSystem))
    ∧ (([FileChunk.mk "f" [1] 0 1] : List FileChunk) ≠ [] →
        live_nodes exampleDeadSystem.master 100 ≠ [] →
        (∃ c ∈ [FileChunk.mk "f" [1] 0 1],
          ((get_nodes_for_key exampleDeadSystem.master.ring
              (([FileChunk.mk "f" [1] 0 1].headD ⟨"", [], 0, 0⟩).filename
                ++ ":" ++ toString c.chunk_id)
              exampleDeadSystem.master.replication).getD []).filter
            (fun n => n ∈ live_nodes exampleDeadSystem.master 100) = []) →
        UploadFile exampleDeadSystem 100 [FileChunk.mk "f" [1] 0 1]
          = some ("no live nodes for chunk", exampleDeadSystem)) := by
  have hwf : RingWF exampleDeadSystem.master.ring :=
    ringWF_add_node (mkRing 1) "n1" (Nat.le_refl 1) (ringWF_mkRing 1)
  have := upload_rejections exampleDeadSystem 100 [FileChunk.mk "f" [1] 0 1] hwf
  exact ⟨hwf, this.1, this.2.1, this.2.2⟩

end DistSync

namespace DistSync

/-! ## Injectivity of the decimal representation (chunk paths) -/

theorem toDigitsCore_eq_digits :
    ∀ (fuel n : Nat) (acc : List Char), 0 < n → n < fuel →
      Nat.toDigitsCore 10 fuel n acc
        = ((Nat.digits 10 n).map Nat.digitChar).reverse ++ acc := by
  intro fuel
  induction fuel with
  | zero => intro n acc h0 hf; omega
  | succ fuel ih =>
    intro n acc h0 hf
    have hdig : Nat.digits 10 n = n % 10 :: Nat.digits 10 (n / 10) :=
      Nat.digits_def' (by norm_num) h0
    show (if n / 10 = 0 then Nat.digitChar (n % 10) :: acc
        else Nat.toDigitsCore 10 fuel (n / 10) (Nat.digitChar (n % 10) :: acc)) = _
    by_cases hq : n / 10 = 0
    · rw [if_pos hq]
      rw [hdig, hq]
      simp
    · rw [if_neg hq]
      have h0' : 0 < n / 10 := Nat.pos_of_ne_zero hq
      have hlt : n / 10 < n := Nat.div_lt_self h0 (by norm_num)
      rw [ih (n / 10) (Nat.digitChar (n % 10) :: acc) h0' (by omega)]
      rw [hdig]
      simp [List.append_assoc]

theorem repr_eq_of_pos (n : Nat) (h0 : 0 < n) :
    Nat.repr n = (((Nat.digits 10 n).map Nat.digitChar).reverse).asString := by
  show (Nat.toDigits 10 n).asString = _
  unfold Nat.toDigits
  rw [toDigitsCore_eq_digits (n + 1) n [] h0 (by omega)]
  rw [List.append_nil]

theorem digitChar_inj_lt : ∀ a < 10, ∀ b < 10,
    Nat.digitChar a = Nat.digitChar b → a = b := by decide

theorem map_digitChar_inj :
    ∀ xs ys : List Nat, (∀ x ∈ xs, x < 10) → (∀ y ∈ ys, y < 10) →
      xs.map Nat.digitChar = ys.map Nat.digitChar → xs = ys := by
  intro xs
  induction xs with
  | nil =>
    intro ys _ _ h
    cases ys with
    | nil => rfl
    | cons y ys => simp at h
  | cons x xs ih =>
    intro ys hx hy h
    cases ys with
    | nil => simp at h
    | cons y ys =>
      simp only [List.map_cons, List.cons.injEq] at h
      have hxy : x = y := digitChar_inj_lt x (hx x (by simp)) y (hy y (by simp)) h.1
      rw [hxy, ih ys (fun a ha => hx a (by simp [ha])) (fun a ha => hy a (by simp [ha])) h.2]

theorem string_eq_of_data_eq {s t : String} (h : s.data = t.data) : s = t := by
  cases s with
  | mk d1 =>
    cases t with
    | mk d2 =>
      have hd : d1 = d2 := h
      rw [hd]

theorem asString_data (l : List Char) : (l.asString).data = l := rfl

theorem repr_data_of_pos (n : Nat) (h0 : 0 < n) :
    (Nat.repr n).data = ((Nat.digits 10 n).map Nat.digitChar).reverse := by
  rw [repr_eq_of_pos n h0, asString_data]

theorem pos_repr_ne_zero_repr {n : Nat} (hn : 0 < n) : Nat.repr n ≠ Nat.repr 0 := by
  intro h
  have hdata := congrArg String.data h
  rw [repr_data_of_pos n hn] at hdata
  have h0 : (Nat.repr 0).data = ['0'] := rfl
  rw [h0] at hdata
  have hrev := congrArg List.reverse hdata
  simp only [List.reverse_reverse] at hrev
  have hmap : (Nat.digits 10 n).map Nat.digitChar = ['0'] := by simpa using hrev
  cases hd : Nat.digits 10 n with
  | nil => rw [hd] at hmap; simp at hmap
  | cons d rest =>
    rw [hd] at hmap
    simp only [List.map_cons, List.cons.injEq] at hmap
    have hrest : rest = [] := by
      cases rest with
      | nil => rfl
      | cons r rs => exact absurd hmap.2 (by simp)
    have hd0 : d = 0 := digitChar_inj_lt d
      (Nat.digits_lt_base (by norm_num) (by rw [hd]; simp)) 0 (by norm_num) hmap.1
    have hn' : n = d := by
      have hofd := congrArg (Nat.ofDigits 10) hd
      rw [Nat.ofDigits_digits, hrest] at hofd
      simpa [Nat.ofDigits] using hofd
    omega

theorem repr_inj {a b : Nat} (h : Nat.repr a = Nat.repr b) : a = b := by
  rcases Nat.eq_zero_or_pos a with rfl | ha
  · rcases Nat.eq_zero_or_pos b with rfl | hb
    · rfl
    · exact absurd h.symm (pos_repr_ne_zero_repr hb)
  · rcases Nat.eq_zero_or_pos b with rfl | hb
    · exact absurd h (pos_repr_ne_zero_repr ha)
    · have hdata := congrArg String.data h
      rw [repr_data_of_pos a ha, repr_data_of_pos b hb] at hdata
      have hrev := congrArg List.reverse hdata
      simp only [List.reverse_reverse] at hrev
      have hdig : Nat.digits 10 a = Nat.digits 10 b :=
        map_digitChar_inj _ _ (fun x hx => Nat.digits_lt_base (by norm_num) hx)
          (fun y hy => Nat.digits_lt_base (by norm_num) hy) hrev
      have := congrArg (Nat.ofDigits 10) hdig
      rwa [Nat.ofDigits_digits, Nat.ofDigits_digits] at this

theorem chunk_path_inj_cid (f : String) {c1 c2 : Nat}
    (h : chunk_path f c1 = chunk_path f c2) : c1 = c2 := by
  unfold chunk_path at h
  have hd := congrArg String.data h
  simp only [String.data_append] at hd
  have h1 := List.append_cancel_right hd
  have h2 := List.append_cancel_left h1
  have h3 : (toString c1 : String) = toString c2 := string_eq_of_data_eq h2
  exact repr_inj h3

end DistSync

namespace DistSync

/-! ## Reassembling consecutive chunks -/

theorem flatten_chunks (cs : Nat) (hcs : 1 ≤ cs) :
    ∀ (t : Nat) (data : List Nat), (data.length + cs - 1) / cs = t →
      ((List.range t).map (fun i => (data.drop (i * cs)).take cs)).flatten = data := by
  intro t
  induction t with
  | zero =>
    intro data ht
    have hlen : data.length = 0 := by
      rcases Nat.lt_or_ge (data.length + cs - 1) cs with h2 | h2
      · omega
      · exfalso
        have h3 : cs / cs ≤ (data.length + cs - 1) / cs := Nat.div_le_div_right h2
        rw [Nat.div_self (by omega), ht] at h3
        omega
    rw [List.eq_nil_of_length_eq_zero hlen]
    simp
  | succ t ih =>
    intro data ht
    have hlen : 0 < data.length := by
      by_contra hl
      have h0 : data.length = 0 := by omega
      rw [h0] at ht
      have hz : (0 + cs - 1) / cs = 0 := Nat.div_eq_of_lt (by omega)
      omega
    rw [List.range_succ_eq_map, List.map_cons]
    rw [List.flatten_cons]
    simp only [Nat.zero_mul, List.drop_zero, List.map_map]
    have hmap : (List.range t).map ((fun i => (data.drop (i * cs)).take cs) ∘ Nat.succ)
        = (List.range t).map (fun i => ((data.drop cs).drop (i * cs)).take cs) := by
      apply List.map_congr_left
      intro k _
      simp only [Function.comp_apply]
      rw [List.drop_drop]
      have hidx : Nat.succ k * cs = cs + k * cs := by
        rw [Nat.succ_mul, Nat.add_comm]
      rw [hidx]
    rw [hmap]
    rw [ih (data.drop cs) ?_]
    · exact List.take_append_drop cs data
    · rw [List.length_drop]
      rcases Nat.lt_or_ge cs data.length with hgt | hle
      · have h1 : data.length + cs - 1 = (data.length - 1) + cs := by omega
        rw [h1, Nat.add_div_right _ (by omega)] at ht
        have h2 : data.length - cs + cs - 1 = data.length - 1 := by omega
        rw [h2]
        omega
      · have h1 : data.length - cs = 0 := by omega
        rw [h1]
        have h2 : (0 + cs - 1) / cs = 0 := Nat.div_eq_of_lt (by omega)
        have h3 : (data.length + cs - 1) / cs = 1 := by
          apply Nat.div_eq_of_lt_le
          · omega
          · omega
        omega

end DistSync

namespace DistSync

/-! ## Fan-out write lemmas -/

theorem store_to_node_master (sys : SystemState) (nid : String) (c : FileChunk) :
    (store_to_node sys nid c).master = sys.master := by
  unfold store_to_node
  cases sys.master.node_address.lookup nid with
  | none => rfl
  | some a =>
    cases sys.stores.lookup nid with
    | none => rfl
    | some st => rfl

theorem do_fanout_master (ws : List (String × FileChunk)) :
    ∀ sys : SystemState, (do_fanout sys ws).master = sys.master := by
  induction ws with
  | nil => intro sys; rfl
  | cons w rest ih =>
    intro sys
    show (do_fanout (store_to_node sys w.1 w.2) rest).master = _
    rw [ih, store_to_node_master]

theorem store_to_node_stores_isSome (sys : SystemState) (nid : String) (c : FileChunk)
    (k : String) :
    ((store_to_node sys nid c).stores.lookup k).isSome = ((sys.stores.lookup k)).isSome := by
  unfold store_to_node
  cases haddr : sys.master.node_address.lookup nid with
  | none => rfl
  | some a =>
    cases hst : sys.stores.lookup nid with
    | none => rfl
    | some st =>
      exact lookup_upsert_isSome _ _ _ _ (by simp [hst])

theorem do_fanout_stores_isSome (ws : List (String × FileChunk)) :
    ∀ (sys : SystemState) (k : String),
      ((do_fanout sys ws).stores.lookup k).isSome = ((sys.stores.lookup k)).isSome := by
  induction ws with
  | nil => intro sys k; rfl
  | cons w rest ih =>
    intro sys k
    show ((do_fanout (store_to_node sys w.1 w.2) rest).stores.lookup k).isSome = _
    rw [ih, store_to_node_stores_isSome]

theorem store_to_node_preserves_val (sys : SystemState) (w : String × FileChunk)
    (nid path0 : String) (d0 : List Nat)
    (hcompat : w.1 = nid → chunk_path w.2.filename w.2.chunk_id = path0 → w.2.data = d0)
    (hP : ∃ st, sys.stores.lookup nid = some st ∧ st.lookup path0 = some d0) :
    ∃ st, (store_to_node sys w.1 w.2).stores.lookup nid = some st
      ∧ st.lookup path0 = some d0 := by
  obtain ⟨st0, hst0, hv⟩ := hP
  unfold store_to_node
  cases haddr : sys.master.node_address.lookup w.1 with
  | none => exact ⟨st0, hst0, hv⟩
  | some a =>
    cases hw : sys.stores.lookup w.1 with
    | none => exact ⟨st0, hst0, hv⟩
    | some stw =>
      by_cases hwn : w.1 = nid
      · subst hwn
        have hsw : stw = st0 := by
          rw [hw] at hst0
          simpa using hst0
        refine ⟨(StoreChunk stw w.2).1, lookup_upsert_self _ _ _, ?_⟩
        unfold StoreChunk
        by_cases hpath : chunk_path w.2.filename w.2.chunk_id = path0
        · rw [hpath, lookup_upsert_self]
          rw [hcompat rfl hpath]
        · rw [lookup_upsert_ne _ _ _ _ (fun he => hpath he.symm), hsw]
          exact hv
      · refine ⟨st0, ?_, hv⟩
        show (upsert sys.stores w.1 _).lookup nid = some st0
        rw [lookup_upsert_ne _ _ _ _ (fun he => hwn he.symm)]
        exact hst0

theorem do_fanout_val (ws : List (String × FileChunk)) :
    ∀ (sys : SystemState) (nid path0 : String) (d0 : List Nat),
      (sys.master.node_address.lookup nid).isSome →
      (∀ w ∈ ws, w.1 = nid → chunk_path w.2.filename w.2.chunk_id = path0 →
        w.2.data = d0) →
      ((∃ w ∈ ws, w.1 = nid ∧ chunk_path w.2.filename w.2.chunk_id = path0)
          ∧ (sys.stores.lookup nid).isSome
        ∨ (∃ st, sys.stores.lookup nid = some st ∧ st.lookup path0 = some d0)) →
      ∃ st, (do_fanout sys ws).stores.lookup nid = some st
        ∧ st.lookup path0 = some d0 := by
  induction ws with
  | nil =>
    intro sys nid path0 d0 _ _ hstart
    rcases hstart with ⟨⟨w, hw, _⟩, _⟩ | hP
    · simp at hw
    · exact hP
  | cons w rest ih =>
    intro sys nid path0 d0 haddr hcompat hstart
    show ∃ st, (do_fanout (store_to_node sys w.1 w.2) rest).stores.lookup nid = some st
      ∧ st.lookup path0 = some d0
    have haddr' : ((store_to_node sys w.1 w.2).master.node_address.lookup nid).isSome := by
      rw [store_to_node_master]
      exact haddr
    have hcompat' : ∀ w' ∈ rest, w'.1 = nid →
        chunk_path w'.2.filename w'.2.chunk_id = path0 → w'.2.data = d0 :=
      fun w' hw' => hcompat w' (List.mem_cons_of_mem _ hw')
    rcases hstart with ⟨⟨w', hw', hwn, hwp⟩, hsome⟩ | hP
    · rcases List.mem_cons.mp hw' with rfl | hw'rest
      · -- the head write establishes the stored value
        refine ih _ nid path0 d0 haddr' hcompat' (Or.inr ?_)
        unfold store_to_node
        rw [hwn]
        obtain ⟨a, ha⟩ := Option.isSome_iff_exists.mp haddr
        rw [ha]
        obtain ⟨stw, hstw⟩ := Option.isSome_iff_exists.mp hsome
        rw [hstw]
        refine ⟨(StoreChunk stw w'.2).1, ?_, ?_⟩
        · show (upsert sys.stores nid _).lookup nid = _
          rw [lookup_upsert_self]
        · unfold StoreChunk
          rw [hwp, lookup_upsert_self]
          rw [hcompat w' (List.mem_cons_self _ _) hwn hwp]
      · refine ih _ nid path0 d0 haddr' hcompat' (Or.inl ⟨⟨w', hw'rest, hwn, hwp⟩, ?_⟩)
        rw [store_to_node_stores_isSome]
        exact hsome
    · exact ih _ nid path0 d0 haddr' hcompat'
        (Or.inr (store_to_node_preserves_val sys w nid path0 d0
          (hcompat w (List.mem_cons_self _ _)) hP))

theorem mem_fanout_writes {ps : List (FileChunk × List String)} {w : String × FileChunk} :
    w ∈ fanout_writes ps ↔ ∃ p ∈ ps, w.1 ∈ p.2 ∧ w.2 = p.1 := by
  unfold fanout_writes
  simp only [List.mem_flatMap, List.mem_map]
  constructor
  · rintro ⟨p, hp, nid, hnid, rfl⟩
    exact ⟨p, hp, hnid, rfl⟩
  · rintro ⟨p, hp, hnid, hw2⟩
    refine ⟨p, hp, w.1, hnid, ?_⟩
    cases w
    simp_all

/-! ## Placement success -/

theorem compute_placements_some (ring : RingState) (hWF : RingWF ring) (repl : Nat)
    (live : List String) (filename : String) :
    ∀ chunks : List FileChunk,
      (∀ c ∈ chunks, ((get_nodes_for_key ring (filename ++ ":" ++ toString c.chunk_id)
          repl).getD []).filter (fun n => n ∈ live) ≠ []) →
      ∃ ps, compute_placements ring repl live filename chunks = some (some ps)
        ∧ ps.map Prod.fst = chunks
        ∧ ∀ p ∈ ps, p.2 = ((get_nodes_for_key ring
            (filename ++ ":" ++ toString p.1.chunk_id) repl).getD []).filter
              (fun n => n ∈ live) := by
  intro chunks
  induction chunks with
  | nil =>
    intro _
    exact ⟨[], rfl, rfl, by simp⟩
  | cons c rest ih =>
    intro hne
    obtain ⟨l, hl, -, -, -, -⟩ := get_nodes_spec hWF (filename ++ ":" ++ toString c.chunk_id) repl
    have hfc : List.filter (fun n => decide (n ∈ live)) l ≠ [] := by
      have := hne c (List.mem_cons_self _ _)
      simpa [hl] using this
    obtain ⟨ps, hps, hfst, hval⟩ := ih (fun c' hc' => hne c' (List.mem_cons_of_mem _ hc'))
    refine ⟨(c, List.filter (fun n => decide (n ∈ live)) l) :: ps, ?_, ?_, ?_⟩
    · simp only [compute_placements, hl]
      rw [if_neg hfc, hps]
    · simp [hfst]
    · intro p hp
      rcases List.mem_cons.mp hp with rfl | hp
      · simp [hl]
      · exact hval p hp

end DistSync

namespace DistSync

/-! ## Download-side lemmas -/

theorem try_fetch_head (sys : SystemState) (live : List String) (filename : String)
    (cid : Nat) (nid : String) (rest : List String) (st : NodeStore) (c : FileChunk)
    (hlive : nid ∈ live)
    (haddr : (sys.master.node_address.lookup nid).isSome)
    (hst : sys.stores.lookup nid = some st)
    (hget : GetChunk st filename cid = some c) :
    try_fetch sys live filename cid (nid :: rest) = some (some c) := by
  obtain ⟨a, ha⟩ := Option.isSome_iff_exists.mp haddr
  simp only [try_fetch, if_pos hlive, ha, hst, hget]

theorem fetch_all_ok (sys : SystemState) (live : List String) (filename : String)
    (expected : Nat → FileChunk) :
    ∀ cids : List Nat,
      (∀ cid ∈ cids, ∃ nids,
        get_nodes_for_key sys.master.ring (filename ++ ":" ++ toString cid)
          sys.master.replication = some nids
        ∧ try_fetch sys live filename cid nids = some (some (expected cid))) →
      fetch_all sys live filename cids = some (Except.ok (cids.map expected)) := by
  intro cids
  induction cids with
  | nil => intro _; rfl
  | cons cid rest ih =>
    intro h
    obtain ⟨nids, hn, ht⟩ := h cid (List.mem_cons_self _ _)
    simp only [fetch_all, hn, ht]
    rw [ih (fun c hc => h c (List.mem_cons_of_mem _ hc))]
    simp

end DistSync

namespace DistSync

/-! ## C1: the upload/download round trip -/

/-- C1 (amended: files of at least one byte): uploading a file of arbitrary
non-empty byte content through the coordination service (the client splitting
it into 1,048,576-byte chunks via `stream_file_chunks`) and then downloading
it by its base name reproduces the original bytes exactly — for sizes below
one chunk, exactly one chunk, and several chunks — assuming the registered
storage nodes are live, reachable and have addresses (so every store and
read succeeds) and at least one node is registered.  A 0-byte file is
excluded: it produces no chunks, so the upload returns "no data" and nothing
is stored (see the counterexample). -/
theorem upload_download_roundtrip (sys : SystemState) (now : Int) (path : String)
    (data : List Nat)
    (hWF : RingWF sys.master.ring)
    (hrepl : 1 ≤ sys.master.replication)
    (hnodes : sys.master.ring.nodes ≠ [])
    (hlive : ∀ n ∈ nodesList sys.master.ring, n ∈ live_nodes sys.master now)
    (haddr : ∀ n ∈ nodesList sys.master.ring, (sys.master.node_address.lookup n).isSome)
    (hstores : ∀ n ∈ nodesList sys.master.ring, (sys.stores.lookup n).isSome)
    (hdata : data ≠ []) :
    ∃ sys', UploadFile sys now (stream_file_chunks path data) = some ("ok", sys')
      ∧ ∃ parts, DownloadFile sys' now (basename path) = some (DownloadResult.ok parts)
        ∧ (parts.map (fun c => c.data)).flatten = data := by
  have hchunks : stream_file_chunks path data
      = (List.range ((data.length + 1048576 - 1) / 1048576)).map
          (fun i => ⟨basename path, (data.drop (i * 1048576)).take 1048576, i,
            (data.length + 1048576 - 1) / 1048576⟩) := rfl
  have hdlen : 1 ≤ data.length :=
    Nat.pos_of_ne_zero (fun h => hdata (List.eq_nil_of_length_eq_zero h))
  have htotal_pos : 1 ≤ (data.length + 1048576 - 1) / 1048576 := by
    rw [Nat.one_le_div_iff (by norm_num)]
    omega
  have hchne : stream_file_chunks path data ≠ [] := by
    rw [hchunks]
    intro h
    have hlen := congrArg List.length h
    simp at hlen
    omega
  obtain ⟨c0, restc, hcr⟩ := List.exists_cons_of_ne_nil hchne
  have hc0mem : c0 ∈ stream_file_chunks path data := by
    rw [hcr]
    exact List.mem_cons_self _ _
  have hc0f : c0.filename = basename path := by
    rw [hchunks] at hc0mem
    rcases List.mem_map.mp hc0mem with ⟨i, _, rfl⟩
    rfl
  have hc0t : c0.total_chunks = (data.length + 1048576 - 1) / 1048576 := by
    rw [hchunks] at hc0mem
    rcases List.mem_map.mp hc0mem with ⟨i, _, rfl⟩
    rfl
  have hchar : ∀ c ∈ stream_file_chunks path data,
      c = ⟨basename path, (data.drop (c.chunk_id * 1048576)).take 1048576, c.chunk_id,
        (data.length + 1048576 - 1) / 1048576⟩ := by
    intro c hc
    rw [hchunks] at hc
    rcases List.mem_map.mp hc with ⟨i, _, rfl⟩
    rfl
  have hchar_mem : ∀ cid < (data.length + 1048576 - 1) / 1048576,
      (⟨basename path, (data.drop (cid * 1048576)).take 1048576, cid,
        (data.length + 1048576 - 1) / 1048576⟩ : FileChunk) ∈ stream_file_chunks path data := by
    intro cid hcid
    rw [hchunks]
    exact List.mem_map.mpr ⟨cid, List.mem_range.mpr hcid, rfl⟩
  have hlivene : live_nodes sys.master now ≠ [] := by
    obtain ⟨en, hen⟩ := List.exists_mem_of_ne_nil _ hnodes
    exact List.ne_nil_of_mem (hlive en.1 (List.mem_map.mpr ⟨en, hen, rfl⟩))
  have hfilter_all : ∀ key : String, ∃ l,
      get_nodes_for_key sys.master.ring key sys.master.replication = some l
      ∧ List.filter (fun n => decide (n ∈ live_nodes sys.master now)) l = l
      ∧ l ≠ []
      ∧ (∀ x ∈ l, x ∈ nodesList sys.master.ring) := by
    intro key
    obtain ⟨l, hl, hlen, -, hmem, -⟩ := get_nodes_spec hWF key sys.master.replication
    refine ⟨l, hl, ?_, ?_, hmem⟩
    · rw [List.filter_eq_self]
      intro n hn
      exact decide_eq_true (hlive n (hmem n hn))
    · intro hnil
      rw [hnil] at hlen
      simp only [List.length_nil] at hlen
      have hN : sys.master.ring.nodes.length ≠ 0 :=
        fun h => hnodes (List.eq_nil_of_length_eq_zero h)
      omega
  have hplne : ∀ c ∈ stream_file_chunks path data,
      ((get_nodes_for_key sys.master.ring (c0.filename ++ ":" ++ toString c.chunk_id)
        sys.master.replication).getD []).filter
          (fun n => n ∈ live_nodes sys.master now) ≠ [] := by
    intro c hc
    obtain ⟨l, hl, hfeq, hlne, -⟩ := hfilter_all (c0.filename ++ ":" ++ toString c.chunk_id)
    rw [hl]
    show List.filter (fun n => decide (n ∈ live_nodes sys.master now)) l ≠ []
    rw [hfeq]
    exact hlne
  obtain ⟨ps, hps, hfst, hval⟩ := compute_placements_some sys.master.ring hWF
    sys.master.replication (live_nodes sys.master now) c0.filename
    (stream_file_chunks path data) hplne
  have htc0 : ¬(c0.total_chunks = 0) := by omega
  -- the state after the upload
  refine ⟨{ do_fanout sys (fanout_writes ps) with
    master := save_metadata
      { (do_fanout sys (fanout_writes ps)).master with
        file_index := upsert (do_fanout sys (fanout_writes ps)).master.file_index
          c0.filename c0.total_chunks } }, ?_, ?_⟩
  · -- the upload returns "ok"
    rw [hcr]
    rw [hcr] at hps
    simp only [UploadFile]
    rw [if_neg hlivene]
    rw [hps]
    rw [if_neg htc0]
  · -- the download reproduces the bytes
    have hm1 : (do_fanout sys (fanout_writes ps)).master = sys.master :=
      do_fanout_master _ _
    refine ⟨(List.range c0.total_chunks).map
      (fun cid => ⟨basename path, (data.drop (cid * 1048576)).take 1048576, cid, 0⟩), ?_, ?_⟩
    · -- DownloadFile returns exactly the stored chunks
      have hfi : (save_metadata
          { (do_fanout sys (fanout_writes ps)).master with
            file_index := upsert (do_fanout sys (fanout_writes ps)).master.file_index
              c0.filename c0.total_chunks }).file_index.lookup (basename path)
          = some c0.total_chunks := by
        show (upsert (do_fanout sys (fanout_writes ps)).master.file_index
          c0.filename c0.total_chunks).lookup (basename path) = _
        rw [← hc0f]
        exact lookup_upsert_self _ _ _
      have hhb : (save_metadata
          { (do_fanout sys (fanout_writes ps)).master with
            file_index := upsert (do_fanout sys (fanout_writes ps)).master.file_index
              c0.filename c0.total_chunks }).node_last_heartbeat
          = sys.master.node_last_heartbeat := by
        show (do_fanout sys (fanout_writes ps)).master.node_last_heartbeat = _
        rw [hm1]
      have hlive2 : live_nodes (save_metadata
          { (do_fanout sys (fanout_writes ps)).master with
            file_index := upsert (do_fanout sys (fanout_writes ps)).master.file_index
              c0.filename c0.total_chunks }) now = live_nodes sys.master now := by
        unfold live_nodes
        rw [hhb]
      simp only [DownloadFile, hfi, hlive2]
      rw [if_neg hlivene]
      have hfetch : ∀ cid ∈ List.range c0.total_chunks, ∃ nids,
          get_nodes_for_key ({ do_fanout sys (fanout_writes ps) with
            master := save_metadata
              { (do_fanout sys (fanout_writes ps)).master with
                file_index := upsert (do_fanout sys (fanout_writes ps)).master.file_index
                  c0.filename c0.total_chunks } } : SystemState).master.ring
            (basename path ++ ":" ++ toString cid)
            ({ do_fanout sys (fanout_writes ps) with
              master := save_metadata
                { (do_fanout sys (fanout_writes ps)).master with
                  file_index := upsert (do_fanout sys (fanout_writes ps)).master.file_index
                    c0.filename c0.total_chunks } } : SystemState).master.replication
            = some nids
          ∧ try_fetch ({ do_fanout sys (fanout_writes ps) with
              master := save_metadata
                { (do_fanout sys (fanout_writes ps)).master with
                  file_index := upsert (do_fanout sys (fanout_writes ps)).master.file_index
                    c0.filename c0.total_chunks } } : SystemState)
              (live_nodes sys.master now) (basename path) cid nids
            = some (some (⟨basename path, (data.drop (cid * 1048576)).take 1048576,
                cid, 0⟩ : FileChunk)) := by
        intro cid hcid
        have hcidlt : cid < (data.length + 1048576 - 1) / 1048576 := by
          have := List.mem_range.mp hcid
          omega
        have hring2 : ({ do_fanout sys (fanout_writes ps) with
            master := save_metadata
              { (do_fanout sys (fanout_writes ps)).master with
                file_index := upsert (do_fanout sys (fanout_writes ps)).master.file_index
                  c0.filename c0.total_chunks } } : SystemState).master.ring
            = sys.master.ring := by
          show (do_fanout sys (fanout_writes ps)).master.ring = _
          rw [hm1]
        have hrepl2 : ({ do_fanout sys (fanout_writes ps) with
            master := save_metadata
              { (do_fanout sys (fanout_writes ps)).master with
                file_index := upsert (do_fanout sys (fanout_writes ps)).master.file_index
                  c0.filename c0.total_chunks } } : SystemState).master.replication
            = sys.master.replication := by
          show (do_fanout sys (fanout_writes ps)).master.replication = _
          rw [hm1]
        rw [hring2, hrepl2]
        obtain ⟨l, hl, hfeq, hlne, hlmem⟩ :=
          hfilter_all (basename path ++ ":" ++ toString cid)
        obtain ⟨nid0, nrest, hnl⟩ := List.exists_cons_of_ne_nil hlne
        have hnid0l : nid0 ∈ l := by
          rw [hnl]
          exact List.mem_cons_self _ _
        have hnid0reg : nid0 ∈ nodesList sys.master.ring := hlmem nid0 hnid0l
        -- the chunk for this id, as placed by the upload
        have hcmem := hchar_mem cid hcidlt
        have hpsmem : (⟨basename path, (data.drop (cid * 1048576)).take 1048576, cid,
            (data.length + 1048576 - 1) / 1048576⟩ : FileChunk) ∈ ps.map Prod.fst := by
          rw [hfst]
          exact hcmem
        rcases List.mem_map.mp hpsmem with ⟨p, hp, hp1⟩
        have hp2 : p.2 = l := by
          have := hval p hp
          rw [hp1] at this
          simp only at this
          rw [hc0f] at this
          rw [this, hl]
          show List.filter (fun n => decide (n ∈ live_nodes sys.master now)) l = l
          exact hfeq
        have hw : (nid0, p.1) ∈ fanout_writes ps := by
          rw [mem_fanout_writes]
          exact ⟨p, hp, by rw [hp2]; exact hnid0l, rfl⟩
        -- the stored value at nid0 for this chunk
        obtain ⟨st, hstl, hstv⟩ := do_fanout_val (fanout_writes ps) sys nid0
          (chunk_path (basename path) cid) ((data.drop (cid * 1048576)).take 1048576)
          (haddr nid0 hnid0reg)
          (by
            intro w hwmem hw1 hwp
            rcases mem_fanout_writes.mp hwmem with ⟨q, hq, hqn, hq2⟩
            have hqc : q.1 ∈ stream_file_chunks path data := by
              rw [← hfst]
              exact List.mem_map.mpr ⟨q, hq, rfl⟩
            have hqchar := hchar q.1 hqc
            rw [hq2, hqchar] at hwp
            simp only at hwp
            have hcidq : q.1.chunk_id = cid := chunk_path_inj_cid (basename path) hwp
            rw [hq2, hqchar]
            simp only [hcidq])
          (Or.inl ⟨⟨(nid0, p.1), hw, rfl, by rw [hp1]⟩,
            hstores nid0 hnid0reg⟩)
        refine ⟨l, hl, ?_⟩
        rw [hnl]
        apply try_fetch_head _ _ _ _ _ _ st
        · exact hlive nid0 hnid0reg
        · show ((do_fanout sys (fanout_writes ps)).master.node_address.lookup nid0).isSome
          rw [hm1]
          exact haddr nid0 hnid0reg
        · show (do_fanout sys (fanout_writes ps)).stores.lookup nid0 = some st
          exact hstl
        · unfold GetChunk
          rw [hstv]
          rfl
      rw [fetch_all_ok _ _ _ _ (List.range c0.total_chunks) hfetch]
    · -- joining the chunk payloads gives back the file
      rw [List.map_map]
      have hmapeq : ((fun c : FileChunk => c.data) ∘
          (fun cid => (⟨basename path, (data.drop (cid * 1048576)).take 1048576, cid, 0⟩
            : FileChunk)))
          = fun cid => (data.drop (cid * 1048576)).take 1048576 := rfl
      rw [hmapeq, hc0t]
      exact flatten_chunks 1048576 (by norm_num) _ data rfl

end DistSync

namespace DistSync

def exampleLiveMaster : MasterState :=
  ⟨2, add_node (mkRing 1) "n1", [("n1", "127.0.0.1:50051")], [("n1", 95)], [],
   ⟨[("n1", "127.0.0.1:50051")], []⟩⟩

def exampleLiveSystem : SystemState := ⟨exampleLiveMaster, [("n1", [])]⟩

set_option maxRecDepth 2000000 in
/-- C1 counterexample: a 0-byte file yields no chunks
(`total_chunks = ceil(0 / chunk_size) = 0`), so even with a live, reachable
storage node the upload returns "no data", nothing is stored, and the
download by base name fails with not-found instead of reproducing the
(empty) byte content. -/
theorem upload_download_roundtrip_cx :
    live_nodes exampleLiveSystem.master 100 ≠ []
    ∧ stream_file_chunks "dir/f.txt" [] = []
    ∧ UploadFile exampleLiveSystem 100 (stream_file_chunks "dir/f.txt" [])
        = some ("no data", exampleLiveSystem)
    ∧ DownloadFile exampleLiveSystem 100 (basename "dir/f.txt")
        = some DownloadResult.notFound := by
  refine ⟨?_, ?_, ?_, ?_⟩ <;> decide

set_option maxRecDepth 2000000 in
theorem upload_download_roundtrip_witness :
    RingWF exampleLiveSystem.master.ring
    ∧ 1 ≤ exampleLiveSystem.master.replication
    ∧ exampleLiveSystem.master.ring.nodes ≠ []
    ∧ (∀ n ∈ nodesList exampleLiveSystem.master.ring,
        n ∈ live_nodes exampleLiveSystem.master 100)
    ∧ (∀ n ∈ nodesList exampleLiveSystem.master.ring,
        (exampleLiveSystem.master.node_address.lookup n).isSome)
    ∧ (∀ n ∈ nodesList exampleLiveSystem.master.ring,
        (exampleLiveSystem.stores.lookup n).isSome)
    ∧ ([7, 8, 9] : List Nat) ≠ []
    ∧ ∃ sys', UploadFile exampleLiveSystem 100 (stream_file_chunks "dir/f.txt" [7, 8, 9])
        = some ("ok", sys')
      ∧ ∃ parts, DownloadFile sys' 100 (basename "dir/f.txt")
          = some (DownloadResult.ok parts)
        ∧ (parts.map (fun c => c.data)).flatten = [7, 8, 9] := by
  have hwf : RingWF exampleLiveSystem.master.ring :=
    ringWF_add_node (mkRing 1) "n1" (Nat.le_refl 1) (ringWF_mkRing 1)
  refine ⟨hwf, by decide, by decide, by decide, by decide, by decide, by decide, ?_⟩
  exact upload_download_roundtrip exampleLiveSystem 100 "dir/f.txt" [7, 8, 9] hwf
    (by decide) (by decide) (by decide) (by decide) (by decide) (by decide)

end DistSync
